import Mathlib

/-!
Verification of the PoDoFo streaming-filter and cryptographic-service layer.

The development shallowly embeds the two source files of the repository:

* `src/podofo/private/OpenSSLInternal.cpp` — the cryptographic service layer
  (hash selection, digest computation, raw RSA private-key transform, and the
  `OpenSSLMain` lazy initialization of algorithm handles).
* `src/podofo/main/PdfFilter.h` — the filter-engine lifecycle contract.  The
  implementation file `PdfFilter.cpp` and the concrete codec implementations
  are not part of the source snapshot, so the engine state machine and the
  codec algorithms are modelled from the specification (each such definition
  carries a doc comment starting with `Modelled from the spec:`).

Bytes are modelled as `Nat` (with `< 256` side conditions where the algorithm
depends on byte range); buffers are `List Nat`; fallible C++ code that raises
`PdfError` is modelled with `Except PdfErrorCode`.
-/

/-- Error codes used by the embedded code paths.  `InvalidHandle`,
`InvalidEnumValue`, `OpenSSL` and `OutOfMemory` appear literally in
`OpenSSLInternal.cpp` (`PODOFO_RAISE_ERROR_INFO`).  `UsageError` and
`DecodeError` are the specification's names for the filter-engine
contract-violation signal and for malformed codec input (the engine
implementation is not under `src/`, so its error is modelled from the spec). -/
inductive PdfErrorCode where
  | InvalidHandle
  | InvalidEnumValue
  | OpenSSL
  | OutOfMemory
  | UsageError
  | DecodeError
  deriving DecidableEq, Repr

/-- `PdfHashingAlgorithm` as consumed by `ssl::GetEVP_Size` / `ssl::GetEVP_MD`. -/
inductive PdfHashingAlgorithm where
  | Unknown
  | SHA256
  | SHA384
  | SHA512
  deriving DecidableEq, Repr

/-- `ssl::GetEVP_Size` (OpenSSLInternal.cpp:173-187): expected digest output
length per hashing selector; `Unknown` (and the `default` case) raise
`PdfErrorCode::InvalidEnumValue`. -/
def GetEVP_Size : PdfHashingAlgorithm → Except PdfErrorCode Nat
  | .SHA256 => .ok 32
  | .SHA384 => .ok 48
  | .SHA512 => .ok 64
  | .Unknown => .error .InvalidEnumValue

/-! ## SHA-2 digest mathematics

`ssl::ComputeHash` delegates the digest mathematics to the external OpenSSL
EVP primitives (`EVP_DigestInit`/`Update`/`Final`).  The specification treats
those primitives as an external, audited library computing the standard
algorithms, so the handles returned by `ssl::GetEVP_MD` are modelled by
executable FIPS 180-4 implementations of SHA-256 / SHA-384 / SHA-512. -/

/-- Truncate to a 32-bit word. -/
def w32 (n : Nat) : Nat := n % 4294967296

/-- 32-bit modular addition. -/
def add32 (a b : Nat) : Nat := (a + b) % 4294967296

/-- 32-bit right rotation (argument assumed `< 2^32`). -/
def rotr32 (x n : Nat) : Nat := w32 ((x >>> n) ||| (x <<< (32 - n)))

/-- Truncate to a 64-bit word. -/
def w64 (n : Nat) : Nat := n % 18446744073709551616

/-- 64-bit modular addition. -/
def add64 (a b : Nat) : Nat := (a + b) % 18446744073709551616

/-- 64-bit right rotation (argument assumed `< 2^64`). -/
def rotr64 (x n : Nat) : Nat := w64 ((x >>> n) ||| (x <<< (64 - n)))

/-- SHA-256 round constants (fractional parts of cube roots of the first 64
primes, FIPS 180-4 §4.2.2). -/
def sha256K : List Nat := [
  1116352408, 1899447441, 3049323471, 3921009573, 961987163, 1508970993, 2453635748, 2870763221,
  3624381080, 310598401, 607225278, 1426881987, 1925078388, 2162078206, 2614888103, 3248222580,
  3835390401, 4022224774, 264347078, 604807628, 770255983, 1249150122, 1555081692, 1996064986,
  2554220882, 2821834349, 2952996808, 3210313671, 3336571891, 3584528711, 113926993, 338241895,
  666307205, 773529912, 1294757372, 1396182291, 1695183700, 1986661051, 2177026350, 2456956037,
  2730485921, 2820302411, 3259730800, 3345764771, 3516065817, 3600352804, 4094571909, 275423344,
  430227734, 506948616, 659060556, 883997877, 958139571, 1322822218, 1537002063, 1747873779,
  1955562222, 2024104815, 2227730452, 2361852424, 2428436474, 2756734187, 3204031479, 3329325298]

/-- SHA-256 initial hash value (FIPS 180-4 §5.3.3). -/
def sha256H0 : List Nat :=
  [1779033703, 3144134277, 1013904242, 2773480762, 1359893119, 2600822924, 528734635, 1541459225]

/-- σ₀ message-schedule function of SHA-256. -/
def sha256ssig0 (x : Nat) : Nat := w32 ((rotr32 x 7) ^^^ (rotr32 x 18) ^^^ (x >>> 3))

/-- σ₁ message-schedule function of SHA-256. -/
def sha256ssig1 (x : Nat) : Nat := w32 ((rotr32 x 17) ^^^ (rotr32 x 19) ^^^ (x >>> 10))

/-- Σ₀ compression function of SHA-256. -/
def sha256bsig0 (x : Nat) : Nat := w32 ((rotr32 x 2) ^^^ (rotr32 x 13) ^^^ (rotr32 x 22))

/-- Σ₁ compression function of SHA-256. -/
def sha256bsig1 (x : Nat) : Nat := w32 ((rotr32 x 6) ^^^ (rotr32 x 11) ^^^ (rotr32 x 25))

/-- Choice function of SHA-2. -/
def shaCh (x y z : Nat) : Nat := (x &&& y) ^^^ ((x ^^^ 4294967295) &&& z)

/-- Majority function of SHA-2. -/
def shaMaj (x y z : Nat) : Nat := (x &&& y) ^^^ (x &&& z) ^^^ (y &&& z)

/-- 64-bit choice function. -/
def shaCh64 (x y z : Nat) : Nat := (x &&& y) ^^^ ((x ^^^ 18446744073709551615) &&& z)

/-- The eight working registers of a SHA-2 compression round. -/
structure ShaRegs where
  a : Nat
  b : Nat
  c : Nat
  d : Nat
  e : Nat
  f : Nat
  g : Nat
  h : Nat
  deriving DecidableEq, Repr

/-- One SHA-256 compression round. -/
def sha256Round (st : ShaRegs) (kw : Nat × Nat) : ShaRegs :=
  let t1 := add32 st.h (add32 (sha256bsig1 st.e) (add32 (shaCh st.e st.f st.g) (add32 kw.1 kw.2)))
  let t2 := add32 (sha256bsig0 st.a) (shaMaj st.a st.b st.c)
  ⟨add32 t1 t2, st.a, st.b, st.c, add32 st.d t1, st.e, st.f, st.g⟩

/-- Extend a 16-word block to the 64-word SHA-256 message schedule. -/
def sha256Schedule (ws : List Nat) : List Nat :=
  (List.range 48).foldl (fun acc _ =>
    let n := acc.length
    acc ++ [add32 (add32 (sha256ssig1 (acc.getD (n - 2) 0)) (acc.getD (n - 7) 0))
                  (add32 (sha256ssig0 (acc.getD (n - 15) 0)) (acc.getD (n - 16) 0))]) ws

/-- Compress one 16-word block into the running SHA-256 hash state. -/
def sha256Compress (hs : List Nat) (block : List Nat) : List Nat :=
  let ws := sha256Schedule block
  let init : ShaRegs := ⟨hs.getD 0 0, hs.getD 1 0, hs.getD 2 0, hs.getD 3 0,
                         hs.getD 4 0, hs.getD 5 0, hs.getD 6 0, hs.getD 7 0⟩
  let fin := (sha256K.zip ws).foldl sha256Round init
  [add32 (hs.getD 0 0) fin.a, add32 (hs.getD 1 0) fin.b, add32 (hs.getD 2 0) fin.c,
   add32 (hs.getD 3 0) fin.d, add32 (hs.getD 4 0) fin.e, add32 (hs.getD 5 0) fin.f,
   add32 (hs.getD 6 0) fin.g, add32 (hs.getD 7 0) fin.h]

/-- Big-endian byte decomposition of a `k`-byte word. -/
def beBytes : Nat → Nat → List Nat
  | 0, _ => []
  | k + 1, v => (v >>> (8 * k)) % 256 :: beBytes k v

/-- Big-endian composition of a byte group into one word. -/
def beWord (bs : List Nat) : Nat := bs.foldl (fun acc b => acc * 256 + b) 0

/-- Group a byte list into big-endian words of `k` bytes (fuel-driven so that
the definition reduces in the kernel; `fuel` bounds the number of words). -/
def beWordsF (k : Nat) : Nat → List Nat → List Nat
  | 0, _ => []
  | _, [] => []
  | fuel + 1, b :: bs => beWord ((b :: bs).take k) :: beWordsF k fuel ((b :: bs).drop k)

/-- Group a byte list into big-endian `k`-byte words. -/
def beWords (k : Nat) (bs : List Nat) : List Nat := beWordsF k bs.length bs

/-- SHA-2 padding with a `lenBytes`-byte length field: append `0x80`, zeros to
`blockSize - lenBytes (mod blockSize)`, then the big-endian bit length. -/
def shaPad (blockSize lenBytes : Nat) (msg : List Nat) : List Nat :=
  let l := msg.length
  let r := (l + 1) % blockSize
  let target := blockSize - lenBytes
  let k := if r ≤ target then target - r else target + blockSize - r
  msg ++ [128] ++ List.replicate k 0 ++ beBytes lenBytes (8 * l)

/-- Split a list into chunks of `k` elements (fuel-driven). -/
def chunksF (k : Nat) : Nat → List Nat → List (List Nat)
  | 0, _ => []
  | _, [] => []
  | fuel + 1, b :: bs => ((b :: bs).take k) :: chunksF k fuel ((b :: bs).drop k)

/-- Split a list into chunks of `k` elements. -/
def chunks (k : Nat) (bs : List Nat) : List (List Nat) := chunksF k bs.length bs

/-- Modelled from the spec: the SHA-256 hash math lives in the external
OpenSSL primitives library (`EVP_DigestInit/Update/Final` on the handle
fetched for `"SHA2-256"`); the spec treats it as the standard algorithm, so it
is modelled by FIPS 180-4 SHA-256 over byte lists. -/
def sha256 (msg : List Nat) : List Nat :=
  let blocks := chunks 16 (beWords 4 (shaPad 64 8 msg))
  let hs := blocks.foldl sha256Compress sha256H0
  hs.foldr (fun w acc => beBytes 4 w ++ acc) []

/-- SHA-512 round constants (fractional parts of cube roots of the first 80
primes, FIPS 180-4 §4.2.3). -/
def sha512K : List Nat := [
  4794697086780616226, 8158064640168781261, 13096744586834688815, 16840607885511220156,
  4131703408338449720, 6480981068601479193, 10538285296894168987, 12329834152419229976,
  15566598209576043074, 1334009975649890238, 2608012711638119052, 6128411473006802146,
  8268148722764581231, 9286055187155687089, 11230858885718282805, 13951009754708518548,
  16472876342353939154, 17275323862435702243, 1135362057144423861, 2597628984639134821,
  3308224258029322869, 5365058923640841347, 6679025012923562964, 8573033837759648693,
  10970295158949994411, 12119686244451234320, 12683024718118986047, 13788192230050041572,
  14330467153632333762, 15395433587784984357, 489312712824947311, 1452737877330783856,
  2861767655752347644, 3322285676063803686, 5560940570517711597, 5996557281743188959,
  7280758554555802590, 8532644243296465576, 9350256976987008742, 10552545826968843579,
  11727347734174303076, 12113106623233404929, 14000437183269869457, 14369950271660146224,
  15101387698204529176, 15463397548674623760, 17586052441742319658, 1182934255886127544,
  1847814050463011016, 2177327727835720531, 2830643537854262169, 3796741975233480872,
  4115178125766777443, 5681478168544905931, 6601373596472566643, 7507060721942968483,
  8399075790359081724, 8693463985226723168, 9568029438360202098, 10144078919501101548,
  10430055236837252648, 11840083180663258601, 13761210420658862357, 14299343276471374635,
  14566680578165727644, 15097957966210449927, 16922976911328602910, 17689382322260857208,
  500013540394364858, 748580250866718886, 1242879168328830382, 1977374033974150939,
  2944078676154940804, 3659926193048069267, 4368137639120453308, 4836135668995329356,
  5532061633213252278, 6448918945643986474, 6902733635092675308, 7801388544844847127]

/-- SHA-512 initial hash value (FIPS 180-4 §5.3.5). -/
def sha512H0 : List Nat :=
  [7640891576956012808, 13503953896175478587, 4354685564936845355, 11912009170470909681,
   5840696475078001361, 11170449401992604703, 2270897969802886507, 6620516959819538809]

/-- SHA-384 initial hash value (FIPS 180-4 §5.3.4). -/
def sha384H0 : List Nat :=
  [14680500436340154072, 7105036623409894663, 10473403895298186519, 1526699215303891257,
   7436329637833083697, 10282925794625328401, 15784041429090275239, 5167115440072839076]

/-- σ₀ message-schedule function of SHA-512. -/
def sha512ssig0 (x : Nat) : Nat := w64 ((rotr64 x 1) ^^^ (rotr64 x 8) ^^^ (x >>> 7))

/-- σ₁ message-schedule function of SHA-512. -/
def sha512ssig1 (x : Nat) : Nat := w64 ((rotr64 x 19) ^^^ (rotr64 x 61) ^^^ (x >>> 6))

/-- Σ₀ compression function of SHA-512. -/
def sha512bsig0 (x : Nat) : Nat := w64 ((rotr64 x 28) ^^^ (rotr64 x 34) ^^^ (rotr64 x 39))

/-- Σ₁ compression function of SHA-512. -/
def sha512bsig1 (x : Nat) : Nat := w64 ((rotr64 x 14) ^^^ (rotr64 x 18) ^^^ (rotr64 x 41))

/-- One SHA-512 compression round. -/
def sha512Round (st : ShaRegs) (kw : Nat × Nat) : ShaRegs :=
  let t1 := add64 st.h (add64 (sha512bsig1 st.e) (add64 (shaCh64 st.e st.f st.g) (add64 kw.1 kw.2)))
  let t2 := add64 (sha512bsig0 st.a) (shaMaj st.a st.b st.c)
  ⟨add64 t1 t2, st.a, st.b, st.c, add64 st.d t1, st.e, st.f, st.g⟩

/-- Extend a 16-word block to the 80-word SHA-512 message schedule. -/
def sha512Schedule (ws : List Nat) : List Nat :=
  (List.range 64).foldl (fun acc _ =>
    let n := acc.length
    acc ++ [add64 (add64 (sha512ssig1 (acc.getD (n - 2) 0)) (acc.getD (n - 7) 0))
                  (add64 (sha512ssig0 (acc.getD (n - 15) 0)) (acc.getD (n - 16) 0))]) ws

/-- Compress one 16-word block into the running SHA-512 hash state. -/
def sha512Compress (hs : List Nat) (block : List Nat) : List Nat :=
  let ws := sha512Schedule block
  let init : ShaRegs := ⟨hs.getD 0 0, hs.getD 1 0, hs.getD 2 0, hs.getD 3 0,
                         hs.getD 4 0, hs.getD 5 0, hs.getD 6 0, hs.getD 7 0⟩
  let fin := (sha512K.zip ws).foldl sha512Round init
  [add64 (hs.getD 0 0) fin.a, add64 (hs.getD 1 0) fin.b, add64 (hs.getD 2 0) fin.c,
   add64 (hs.getD 3 0) fin.d, add64 (hs.getD 4 0) fin.e, add64 (hs.getD 5 0) fin.f,
   add64 (hs.getD 6 0) fin.g, add64 (hs.getD 7 0) fin.h]

/-- SHA-512 hash state after processing a padded message. -/
def sha512Core (h0 : List Nat) (msg : List Nat) : List Nat :=
  (chunks 16 (beWords 8 (shaPad 128 16 msg))).foldl sha512Compress h0

/-- Modelled from the spec: standard SHA-512 over byte lists, standing in for
the external OpenSSL `"SHA2-512"` digest primitive. -/
def sha512 (msg : List Nat) : List Nat :=
  (sha512Core sha512H0 msg).foldr (fun w acc => beBytes 8 w ++ acc) []

/-- Modelled from the spec: standard SHA-384 (SHA-512 with its own initial
value, truncated to 48 bytes), standing in for the external OpenSSL
`"SHA2-384"` digest primitive. -/
def sha384 (msg : List Nat) : List Nat :=
  ((sha512Core sha384H0 msg).foldr (fun w acc => beBytes 8 w ++ acc) []).take 48

/-- The digest handles held by the crypto context.  `ssl::GetEVP_MD` only ever
returns the SHA-2 family handles. -/
inductive EVP_MD where
  | sha256
  | sha384
  | sha512
  deriving DecidableEq, Repr

/-- Digest computation through a handle: the `computeHash` static helper of
OpenSSLInternal.cpp (lines 260-278) runs `EVP_DigestInit/Update/Final` on the
handle; the external math is modelled by the FIPS 180-4 functions above. -/
def computeHash (data : List Nat) (type : EVP_MD) : List Nat :=
  match type with
  | .sha256 => sha256 data
  | .sha384 => sha384 data
  | .sha512 => sha512 data

/-- `ssl::GetEVP_MD` (OpenSSLInternal.cpp:189-203): digest handle per hashing
selector; `Unknown` (and the `default` case) raise
`PdfErrorCode::InvalidEnumValue`. -/
def GetEVP_MD : PdfHashingAlgorithm → Except PdfErrorCode EVP_MD
  | .SHA256 => .ok .sha256
  | .SHA384 => .ok .sha384
  | .SHA512 => .ok .sha512
  | .Unknown => .error .InvalidEnumValue

/-- `ssl::ComputeHash` (OpenSSLInternal.cpp:205-211): resolve the handle with
`ssl::GetEVP_MD`, then run the digest; the handle resolution error for
`Unknown` propagates before any digest is produced. -/
def ComputeHash (data : List Nat) (hashing : PdfHashingAlgorithm) :
    Except PdfErrorCode (List Nat) :=
  match GetEVP_MD hashing with
  | .ok md => .ok (computeHash data md)
  | .error e => .error e

/-! ## Raw RSA private-key transform

`ssl::RsaRawEncrypt` (OpenSSLInternal.cpp:128-137) resizes the output buffer
to `RSA_size(rsa)` (the modulus byte length) and then calls
`RSA_private_encrypt`, explicitly discarding its return status with a
`(void)` cast.  The external RSA operation is modelled by a function field of
the key that either fails (`none`, modelling a non-positive return status) or
returns the bytes it would write into the output buffer. -/

/-- An `EVP_PKEY` RSA key as seen by `ssl::RsaRawEncrypt`: `RSA_size` (the
modulus byte length) plus the external `RSA_private_encrypt` operation, which
may fail. -/
structure EVP_PKEY where
  rsaSize : Nat
  privateEncrypt : List Nat → Option (List Nat)

/-- Overwrite the front of buffer `buf` with `res` (what a C write of `res`
into a pre-sized buffer does); the buffer length never changes. -/
def writeInto (buf res : List Nat) : List Nat :=
  (res ++ buf.drop res.length).take buf.length

/-- `ssl::RsaRawEncrypt` (OpenSSLInternal.cpp:128-137): resize `output` to
`rsalen`, run `RSA_private_encrypt`, discard its status (`(void)` cast), and
return normally.  The function never raises. -/
def RsaRawEncrypt (input : List Nat) (pkey : EVP_PKEY) :
    Except PdfErrorCode (List Nat) :=
  let rsalen := pkey.rsaSize
  let output := List.replicate rsalen 0
  match pkey.privateEncrypt input with
  | some res => .ok (writeInto output res)
  | none => .ok output

/-! ## `OpenSSLMain` handle lifecycle

`OpenSSLMain` (OpenSSLInternal.cpp:25-71) zero-initializes all algorithm
handles in its constructor and populates all of them in `Init()` (the
`OPENSSL_VERSION_MAJOR >= 3` branch: a library context and two providers are
created, each raising `PdfErrorCode::InvalidHandle` on failure, and then the
eight algorithm handles are fetched).  The external `EVP_CIPHER_fetch` /
`EVP_MD_fetch` calls on successfully loaded providers are modelled as total,
per the spec's treatment of the primitives library as external and audited.
The `ssl::Init()` once-guard itself lives in the public module
(`PdfCommon.cpp`, not under `src/`), so it is modelled from the spec:
idempotent, lazy, running the engine initialization at most once. -/

/-- The handle fields of `OpenSSLMain`.  Each is `Option Unit`: `none` is a
zero-initialized (null) handle, `some ()` a populated one. -/
structure OpenSSLMain where
  m_Rc4 : Option Unit
  m_Aes128 : Option Unit
  m_Aes256 : Option Unit
  m_MD5 : Option Unit
  m_SHA1 : Option Unit
  m_SHA256 : Option Unit
  m_SHA384 : Option Unit
  m_SHA512 : Option Unit
  m_libCtx : Option Unit
  m_legacyProvider : Option Unit
  m_defaultProvider : Option Unit
  deriving DecidableEq, Repr

/-- The `OpenSSLMain` constructor (OpenSSLInternal.cpp:25-32): every handle
starts out null. -/
def OpenSSLMain.new : OpenSSLMain :=
  ⟨none, none, none, none, none, none, none, none, none, none, none⟩

/-- Success/failure of the external environment during `Init`:
`OSSL_LIB_CTX_new` and the two `OSSL_PROVIDER_load` calls can each fail. -/
structure InitEnv where
  libCtxOk : Bool
  legacyOk : Bool
  defaultOk : Bool
  deriving DecidableEq, Repr

/-- `OpenSSLMain::Init` (OpenSSLInternal.cpp:34-71, `OPENSSL_VERSION_MAJOR >=
3` branch).  Returns the object state after the call together with the raised
error, if any: on a provider failure the method throws after the earlier
assignments have already happened, leaving every algorithm handle still
unset; on success all eight algorithm handles are fetched. -/
def OpenSSLMain.Init (m : OpenSSLMain) (env : InitEnv) :
    OpenSSLMain × Option PdfErrorCode :=
  if env.libCtxOk = false then
    (m, some .InvalidHandle)
  else
    let m := { m with m_libCtx := some () }
    if env.legacyOk = false then
      (m, some .InvalidHandle)
    else
      let m := { m with m_legacyProvider := some () }
      if env.defaultOk = false then
        (m, some .InvalidHandle)
      else
        let m := { m with m_defaultProvider := some () }
        let m := { m with m_Rc4 := some () }
        let m := { m with m_Aes128 := some () }
        let m := { m with m_Aes256 := some () }
        let m := { m with m_MD5 := some () }
        let m := { m with m_SHA1 := some () }
        let m := { m with m_SHA256 := some () }
        let m := { m with m_SHA384 := some () }
        let m := { m with m_SHA512 := some () }
        (m, none)

/-- All eight algorithm handles of the crypto context are unset. -/
def allUnset (m : OpenSSLMain) : Prop :=
  m.m_Rc4 = none ∧ m.m_Aes128 = none ∧ m.m_Aes256 = none ∧ m.m_MD5 = none ∧
  m.m_SHA1 = none ∧ m.m_SHA256 = none ∧ m.m_SHA384 = none ∧ m.m_SHA512 = none

/-- All eight algorithm handles of the crypto context are set. -/
def allSet (m : OpenSSLMain) : Prop :=
  m.m_Rc4 = some () ∧ m.m_Aes128 = some () ∧ m.m_Aes256 = some () ∧ m.m_MD5 = some () ∧
  m.m_SHA1 = some () ∧ m.m_SHA256 = some () ∧ m.m_SHA384 = some () ∧ m.m_SHA512 = some ()

instance (m : OpenSSLMain) : Decidable (allUnset m) := by unfold allUnset; infer_instance

instance (m : OpenSSLMain) : Decidable (allSet m) := by unfold allSet; infer_instance

/-- The process-wide crypto-context state: the `s_SSL` object plus the
once-guard flag of the `ssl::Init()` entry point. -/
structure SSLGlobal where
  main : OpenSSLMain
  initialized : Bool
  deriving DecidableEq, Repr

/-- The pristine process state: a freshly constructed `s_SSL`, not yet
initialized. -/
def SSLGlobal.start : SSLGlobal := ⟨OpenSSLMain.new, false⟩

/-- Modelled from the spec: the `ssl::Init()` entry point (declared in
`OpenSSLInternal.h`, defined in the public module, not under `src/`) is lazy
and idempotent — the first successful caller runs `OpenSSLMain::Init`,
subsequent callers observe the already-initialized state.  Returns the new
global state, the raised error if any, and whether the underlying engine
initialization ran to completion in this call. -/
def sslInit (g : SSLGlobal) (env : InitEnv) : SSLGlobal × Option PdfErrorCode × Bool :=
  if g.initialized then
    (g, none, false)
  else
    match g.main.Init env with
    | (m, none) => (⟨m, true⟩, none, true)
    | (m, some e) => (⟨m, false⟩, some e, false)

/-- One observable operation against the process-wide crypto context: either
an explicit `ssl::Init()` call or one of the accessors
(`ssl::Rc4/Aes128/Aes256/MD5/SHA1/SHA256/SHA384/SHA512`,
OpenSSLInternal.cpp:288-334), each of which calls `ssl::Init()` first.  The
`InitEnv` is the behaviour of the external engine if an initialization runs
during the operation. -/
inductive SSLOp where
  | initCall (env : InitEnv)
  | accessor (env : InitEnv)
  deriving DecidableEq, Repr

/-- Step the process-wide state by one operation; the `Nat` counts how many
underlying engine initializations the operation performed. -/
def sslStep (g : SSLGlobal) : SSLOp → SSLGlobal × Nat
  | .initCall env | .accessor env =>
    match sslInit g env with
    | (g1, _, ran) => (g1, if ran then 1 else 0)

/-- Run a sequence of operations from a state, returning the final state and
the total number of underlying engine initializations performed. -/
def sslRun (g : SSLGlobal) : List SSLOp → SSLGlobal × Nat
  | [] => (g, 0)
  | op :: ops =>
    match sslStep g op with
    | (g1, n) =>
      match sslRun g1 ops with
      | (g2, m) => (g2, n + m)

/-! ## Filter-engine lifecycle state machine

`PdfFilter.h` declares the progressive API (`BeginEncode` / `EncodeBlock` /
`EndEncode`, `BeginDecode` / `DecodeBlock` / `EndDecode`), the one-shot
wrappers `EncodeTo` / `DecodeTo` (documented to use the progressive API
internally), and `FailEncodeDecode` (documented to clear the stream binding
and to make every `Block`/`End` call throw without calling the virtual
implementations until the next `Begin`).  The implementation file is not part
of the snapshot, so the state machine is modelled from the spec (§4.1):
states `Idle / Active(Encoding|Decoding) / Failed`. -/

/-- Modelled from the spec: the tri-state lifecycle flag of a Filter Engine
(§4.1); `Active` keeps its direction. -/
inductive FilterLifecycle where
  | idle
  | activeEncoding
  | activeDecoding
  | failed
  deriving DecidableEq, Repr

/-- The virtual hook implementations of a Codec (`BeginEncodeImpl` etc. of
`PdfFilter.h`), recorded by the engine model so that theorems can state which
hooks a call invoked. -/
inductive Hook where
  | beginEncodeImpl
  | encodeBlockImpl
  | endEncodeImpl
  | beginDecodeImpl
  | decodeBlockImpl
  | endDecodeImpl
  deriving DecidableEq, Repr

/-- Opaque decode-parameters dictionary (`PdfDictionary*`), out of scope per
the spec; only its presence is modelled. -/
def DecodeParms : Type := Unit

/-- Modelled from the spec: a concrete Codec — one algorithm behind the
virtual hook interface of `PdfFilter` (§4.2, §9).  `σ` is its internal state,
reset from `init` on every `Begin`.  Each hook returns the successor state
and the bytes it writes to the bound output stream; the decode-side hooks can
fail with a `DecodeError`. -/
structure Codec (σ : Type) where
  init : σ
  beginEncodeImpl : σ → σ × List Nat
  encodeBlockImpl : σ → List Nat → σ × List Nat
  endEncodeImpl : σ → σ × List Nat
  beginDecodeImpl : σ → Option DecodeParms → σ × List Nat
  decodeBlockImpl : σ → List Nat → Except PdfErrorCode (σ × List Nat)
  endDecodeImpl : σ → Except PdfErrorCode (σ × List Nat)

/-- Modelled from the spec: a Filter Engine (§3) — the lifecycle flag, the
Codec's internal state, and whether an output sink is currently bound
(`m_OutputStream != nullptr`). -/
structure FilterEngine (σ : Type) where
  state : FilterLifecycle
  codecState : σ
  streamBound : Bool

/-- The result of one engine call: the raised error or the successor engine
with the bytes written to the sink, paired with the list of Codec hook
implementations the call invoked. -/
def EngineResult (σ : Type) : Type :=
  Except PdfErrorCode (FilterEngine σ × List Nat) × List Hook

/-- Modelled from the spec: `PdfFilter::BeginEncode` (§4.1) — valid unless
the engine is already `Active`; binds the sink, resets the Codec state and
invokes `BeginEncodeImpl`, and moves to `Active(Encoding)`.  A `Failed`
engine is re-armed into a clean session.  Calling while `Active` signals
`UsageError`. -/
def BeginEncode (c : Codec σ) (e : FilterEngine σ) : EngineResult σ :=
  match e.state with
  | .activeEncoding | .activeDecoding => (.error .UsageError, [])
  | .idle | .failed =>
    match c.beginEncodeImpl c.init with
    | (s1, out) => (.ok (⟨.activeEncoding, s1, true⟩, out), [.beginEncodeImpl])

/-- Modelled from the spec: `PdfFilter::EncodeBlock` (§4.1) — valid only in
`Active(Encoding)`, forwarding the span to `EncodeBlockImpl`; in any other
state it signals `UsageError` without invoking any Codec hook and without
producing output. -/
def EncodeBlock (c : Codec σ) (e : FilterEngine σ) (view : List Nat) : EngineResult σ :=
  match e.state with
  | .activeEncoding =>
    match c.encodeBlockImpl e.codecState view with
    | (s1, out) => (.ok ({ e with codecState := s1 }, out), [.encodeBlockImpl])
  | _ => (.error .UsageError, [])

/-- Modelled from the spec: `PdfFilter::EndEncode` (§4.1) — valid only in
`Active(Encoding)`; invokes `EndEncodeImpl` (flushing buffered state), unbinds
the sink and returns to `Idle`; otherwise signals `UsageError` without
invoking any Codec hook. -/
def EndEncode (c : Codec σ) (e : FilterEngine σ) : EngineResult σ :=
  match e.state with
  | .activeEncoding =>
    match c.endEncodeImpl e.codecState with
    | (s1, out) => (.ok (⟨.idle, s1, false⟩, out), [.endEncodeImpl])
  | _ => (.error .UsageError, [])

/-- Modelled from the spec: `PdfFilter::BeginDecode` (§4.1), the decode-side
counterpart of `BeginEncode`. -/
def BeginDecode (c : Codec σ) (e : FilterEngine σ) (parms : Option DecodeParms) :
    EngineResult σ :=
  match e.state with
  | .activeEncoding | .activeDecoding => (.error .UsageError, [])
  | .idle | .failed =>
    match c.beginDecodeImpl c.init parms with
    | (s1, out) => (.ok (⟨.activeDecoding, s1, true⟩, out), [.beginDecodeImpl])

/-- Modelled from the spec: `PdfFilter::DecodeBlock` (§4.1) — valid only in
`Active(Decoding)`, forwarding the span to `DecodeBlockImpl` (whose
`DecodeError` propagates); in any other state it signals `UsageError` without
invoking any Codec hook and without producing output. -/
def DecodeBlock (c : Codec σ) (e : FilterEngine σ) (view : List Nat) : EngineResult σ :=
  match e.state with
  | .activeDecoding =>
    match c.decodeBlockImpl e.codecState view with
    | .ok (s1, out) => (.ok ({ e with codecState := s1 }, out), [.decodeBlockImpl])
    | .error err => (.error err, [.decodeBlockImpl])
  | _ => (.error .UsageError, [])

/-- Modelled from the spec: `PdfFilter::EndDecode` (§4.1) — valid only in
`Active(Decoding)`; invokes `EndDecodeImpl`, unbinds the sink and returns to
`Idle`; otherwise signals `UsageError` without invoking any Codec hook. -/
def EndDecode (c : Codec σ) (e : FilterEngine σ) : EngineResult σ :=
  match e.state with
  | .activeDecoding =>
    match c.endDecodeImpl e.codecState with
    | .ok (s1, out) => (.ok (⟨.idle, s1, false⟩, out), [.endDecodeImpl])
    | .error err => (.error err, [.endDecodeImpl])
  | _ => (.error .UsageError, [])

/-- `PdfFilter::FailEncodeDecode` (PdfFilter.h:180-191): clears the stream
binding, latches the `Failed` state, and does nothing else — in particular it
invokes no Codec hook. -/
def FailEncodeDecode (e : FilterEngine σ) : FilterEngine σ :=
  { e with state := .failed, streamBound := false }

/-- `PdfFilter::EncodeTo` (PdfFilter.h:49-59): the one-shot wrapper, documented
to use `BeginEncode()/EncodeBlock()/EndEncode()` internally on a fresh
session. -/
def EncodeTo (c : Codec σ) (input : List Nat) : Except PdfErrorCode (List Nat) :=
  let e0 : FilterEngine σ := ⟨.idle, c.init, false⟩
  match (BeginEncode c e0).1 with
  | .error err => .error err
  | .ok (e1, o1) =>
    match (EncodeBlock c e1 input).1 with
    | .error err => .error err
    | .ok (e2, o2) =>
      match (EndEncode c e2).1 with
      | .error err => .error err
      | .ok (_, o3) => .ok (o1 ++ o2 ++ o3)

/-- `PdfFilter::DecodeTo` (PdfFilter.h:113-124): the one-shot decode wrapper,
using `BeginDecode()/DecodeBlock()/EndDecode()` internally on a fresh
session. -/
def DecodeTo (c : Codec σ) (input : List Nat) (parms : Option DecodeParms) :
    Except PdfErrorCode (List Nat) :=
  let e0 : FilterEngine σ := ⟨.idle, c.init, false⟩
  match (BeginDecode c e0 parms).1 with
  | .error err => .error err
  | .ok (e1, o1) =>
    match (DecodeBlock c e1 input).1 with
    | .error err => .error err
    | .ok (e2, o2) =>
      match (EndDecode c e2).1 with
      | .error err => .error err
      | .ok (_, o3) => .ok (o1 ++ o2 ++ o3)

/-! ## RLE codec

Modelled from the spec (§4.2): greedy run-length compression in the PDF
`RunLengthDecode` format — a length byte `0..127` introduces that many plus
one literal bytes, a length byte `129..255` repeats the following byte
`257 - length` times (runs of up to 128), and `128` marks end of data.  The
concrete codec implementation is not under `src/`.  The definitions are
fuel-driven (fuel bounds the number of consumed bytes) so that they reduce in
the kernel; `rleEncode`/`rleDecode` instantiate the fuel with the input
length, which the fuel lemmas show is always enough. -/

/-- Length of the run of byte `b` at the front of the list. -/
def countRun (b : Nat) : List Nat → Nat
  | c :: rest => if c = b then countRun b rest + 1 else 0
  | [] => 0

/-- Greedy literal run: take up to `k` bytes, stopping before the first
position that starts a run of two identical bytes. -/
def takeLits : List Nat → Nat → List Nat
  | [], _ => []
  | [b], k => if k = 0 then [] else [b]
  | b :: c :: rest, k =>
    if k = 0 then [] else if b = c then [] else b :: takeLits (c :: rest) (k - 1)

/-- Fuel-driven body of the RLE encoder. -/
def rleEncodeF : Nat → List Nat → List Nat
  | _, [] => [128]
  | 0, _ :: _ => [128]
  | fuel + 1, b :: rest =>
    let r := countRun b rest + 1
    if 2 ≤ r then
      let k := min r 128
      (257 - k) :: b :: rleEncodeF fuel (rest.drop (k - 1))
    else
      let lits := takeLits (b :: rest) 128
      (lits.length - 1) :: (lits ++ rleEncodeF fuel ((b :: rest).drop lits.length))

/-- Modelled from the spec: the RLE encoder — greedy runs of up to 128
identical bytes, literal-run packing of up to 128 bytes for non-repeating
data, and the `128` end-of-data marker. -/
def rleEncode (xs : List Nat) : List Nat := rleEncodeF xs.length xs

/-- Fuel-driven body of the RLE decoder. -/
def rleDecodeF : Nat → List Nat → Except PdfErrorCode (List Nat)
  | _, [] => .error .DecodeError
  | 0, _ :: _ => .error .DecodeError
  | fuel + 1, l :: rest =>
    if l = 128 then .ok []
    else if l ≤ 127 then
      if rest.length < l + 1 then .error .DecodeError
      else
        match rleDecodeF fuel (rest.drop (l + 1)) with
        | .ok tail => .ok (rest.take (l + 1) ++ tail)
        | .error e => .error e
    else
      match rest with
      | [] => .error .DecodeError
      | b :: rest2 =>
        match rleDecodeF fuel rest2 with
        | .ok tail => .ok (List.replicate (257 - l) b ++ tail)
        | .error e => .error e

/-- Modelled from the spec: the RLE decoder — re-expands run markers
byte-for-byte and rejects truncated or headerless input as a `DecodeError`. -/
def rleDecode (xs : List Nat) : Except PdfErrorCode (List Nat) := rleDecodeF xs.length xs
/-- A run of `b` of length `m` at the front: taking `m` yields `replicate`. -/
theorem countRun_take (b : Nat) : ∀ (rest : List Nat) (m : Nat),
    m ≤ countRun b rest → rest.take m = List.replicate m b := by
  intro rest
  induction rest with
  | nil => intro m hm; simp [countRun] at hm; simp [hm]
  | cons c rest ih =>
    intro m hm
    cases m with
    | zero => simp
    | succ m =>
      simp only [countRun] at hm
      by_cases hc : c = b
      · subst hc
        simp only [eq_self_iff_true, if_true] at hm
        simp [List.take_succ_cons, List.replicate_succ]
        exact ih m (by omega)
      · simp [if_neg hc] at hm

theorem takeLits_length_le : ∀ (xs : List Nat) (k : Nat), (takeLits xs k).length ≤ k := by
  intro xs
  induction xs with
  | nil => intro k; simp [takeLits]
  | cons b rest ih =>
    intro k
    match rest, k with
    | [], 0 => simp [takeLits]
    | [], k + 1 => simp [takeLits]
    | c :: rest2, k =>
      simp only [takeLits]
      split
      · simp
      · split
        · simp
        · have := ih (k - 1)
          simp only [List.length_cons]
          omega

theorem takeLits_append_drop : ∀ (xs : List Nat) (k : Nat),
    takeLits xs k ++ xs.drop (takeLits xs k).length = xs := by
  intro xs
  induction xs with
  | nil => intro k; simp [takeLits]
  | cons b rest ih =>
    intro k
    match rest, k with
    | [], 0 => simp [takeLits]
    | [], k + 1 => simp [takeLits]
    | c :: rest2, k =>
      simp only [takeLits]
      split
      · simp
      · split
        · simp
        · simp only [List.length_cons, List.cons_append, List.drop_succ_cons]
          rw [ih (k - 1)]

theorem takeLits_length_pos (b : Nat) (rest : List Nat) (k : Nat)
    (h : countRun b rest = 0) (hk : k ≠ 0) : 0 < (takeLits (b :: rest) k).length := by
  match rest with
  | [] => simp [takeLits, if_neg hk]
  | c :: rest2 =>
    have hbc : ¬(b = c) := by
      intro hbc
      subst hbc
      simp [countRun] at h
    simp [takeLits, if_neg hk, if_neg hbc]
theorem rleEncodeF_fuelIrrel : ∀ (f1 f2 : Nat) (xs : List Nat),
    xs.length ≤ f1 → xs.length ≤ f2 → rleEncodeF f1 xs = rleEncodeF f2 xs := by
  intro f1
  induction f1 with
  | zero =>
    intro f2 xs h1 h2
    have hx : xs = [] := List.eq_nil_of_length_eq_zero (by omega)
    subst hx
    cases f2 <;> rfl
  | succ f ih =>
    intro f2 xs h1 h2
    cases xs with
    | nil => cases f2 <;> rfl
    | cons b rest =>
      cases f2 with
      | zero => simp at h2
      | succ g =>
        simp only [List.length_cons] at h1 h2
        simp only [rleEncodeF]
        by_cases hr : 2 ≤ countRun b rest + 1
        · simp only [if_pos hr]
          rw [ih g (rest.drop (min (countRun b rest + 1) 128 - 1))
            (by simp only [List.length_drop]; omega)
            (by simp only [List.length_drop]; omega)]
        · simp only [if_neg hr]
          have hcr : countRun b rest = 0 := by omega
          have hpos := takeLits_length_pos b rest 128 hcr (by omega)
          rw [ih g ((b :: rest).drop (takeLits (b :: rest) 128).length)
            (by simp only [List.length_drop, List.length_cons]; omega)
            (by simp only [List.length_drop, List.length_cons]; omega)]

theorem rleDecodeF_fuelIrrel : ∀ (f1 f2 : Nat) (xs : List Nat),
    xs.length ≤ f1 → xs.length ≤ f2 → rleDecodeF f1 xs = rleDecodeF f2 xs := by
  intro f1
  induction f1 with
  | zero =>
    intro f2 xs h1 h2
    have hx : xs = [] := List.eq_nil_of_length_eq_zero (by omega)
    subst hx
    cases f2 <;> rfl
  | succ f ih =>
    intro f2 xs h1 h2
    cases xs with
    | nil => cases f2 <;> rfl
    | cons l rest =>
      cases f2 with
      | zero => simp at h2
      | succ g =>
        simp only [List.length_cons] at h1 h2
        simp only [rleDecodeF]
        by_cases h128 : l = 128
        · simp only [if_pos h128]
        · simp only [if_neg h128]
          by_cases hlit : l ≤ 127
          · simp only [if_pos hlit]
            by_cases hlen : rest.length < l + 1
            · simp only [if_pos hlen]
            · simp only [if_neg hlen]
              rw [ih g (rest.drop (l + 1))
                (by simp only [List.length_drop]; omega)
                (by simp only [List.length_drop]; omega)]
          · simp only [if_neg hlit]
            cases rest with
            | nil => rfl
            | cons b rest2 =>
              simp only [List.length_cons] at h1 h2
              dsimp only
              rw [ih g rest2 (by omega) (by omega)]
theorem rleDecode_run (k b : Nat) (tail : List Nat) (h2 : 2 ≤ k) (h128 : k ≤ 128) :
    rleDecode ((257 - k) :: b :: tail) =
      match rleDecode tail with
      | .ok t => .ok (List.replicate k b ++ t)
      | .error e => .error e := by
  have hne : ¬(257 - k = 128) := by omega
  have hle : ¬(257 - k ≤ 127) := by omega
  show rleDecodeF ((257 - k) :: b :: tail).length ((257 - k) :: b :: tail) = _
  simp only [List.length_cons, rleDecodeF, if_neg hne, if_neg hle]
  rw [rleDecodeF_fuelIrrel (tail.length + 1) tail.length tail (by omega) (by omega)]
  rw [show 257 - (257 - k) = k from by omega]
  rfl

theorem rleDecode_lits (lits tail : List Nat) (h1 : 1 ≤ lits.length) (h128 : lits.length ≤ 128) :
    rleDecode ((lits.length - 1) :: (lits ++ tail)) =
      match rleDecode tail with
      | .ok t => .ok (lits ++ t)
      | .error e => .error e := by
  have hne : ¬(lits.length - 1 = 128) := by omega
  have hle : lits.length - 1 ≤ 127 := by omega
  show rleDecodeF ((lits.length - 1) :: (lits ++ tail)).length ((lits.length - 1) :: (lits ++ tail)) = _
  simp only [List.length_cons, rleDecodeF, if_neg hne, if_pos hle]
  rw [show lits.length - 1 + 1 = lits.length from by omega]
  have hnlt : ¬((lits ++ tail).length < lits.length) := by
    simp only [List.length_append]; omega
  simp only [if_neg hnlt]
  rw [List.take_left, List.drop_left]
  rw [rleDecodeF_fuelIrrel (lits ++ tail).length tail.length tail
    (by simp only [List.length_append]; omega) (by omega)]
  rfl

theorem rleRoundtripAux : ∀ (n : Nat) (xs : List Nat), xs.length ≤ n →
    rleDecode (rleEncode xs) = .ok xs := by
  intro n
  induction n with
  | zero =>
    intro xs h
    have hx : xs = [] := List.eq_nil_of_length_eq_zero (by omega)
    subst hx
    rfl
  | succ n ih =>
    intro xs h
    cases xs with
    | nil => rfl
    | cons b rest =>
      simp only [List.length_cons] at h
      show rleDecode (rleEncodeF (rest.length + 1) (b :: rest)) = _
      simp only [rleEncodeF]
      by_cases hr : 2 ≤ countRun b rest + 1
      · simp only [if_pos hr]
        set k := min (countRun b rest + 1) 128 with hkdef
        have hk2 : 2 ≤ k := by omega
        have hk128 : k ≤ 128 := by omega
        obtain ⟨m, hm⟩ : ∃ m, k = m + 1 := ⟨k - 1, by omega⟩
        rw [rleEncodeF_fuelIrrel rest.length (rest.drop (k - 1)).length (rest.drop (k - 1))
          (by simp only [List.length_drop]; omega) (le_refl _)]
        rw [show rleEncodeF (rest.drop (k - 1)).length (rest.drop (k - 1)) =
            rleEncode (rest.drop (k - 1)) from rfl]
        rw [rleDecode_run k b _ hk2 hk128]
        rw [ih (rest.drop (k - 1)) (by simp only [List.length_drop]; omega)]
        have htake := countRun_take b rest m (by omega)
        dsimp only
        rw [hm]
        simp only [Nat.add_sub_cancel]
        rw [List.replicate_succ, List.cons_append]
        have hjoin : List.replicate m b ++ rest.drop m = rest := by
          conv_rhs => rw [← List.take_append_drop m rest]
          rw [htake]
        rw [hjoin]
      · simp only [if_neg hr]
        have hcr : countRun b rest = 0 := by omega
        have hpos := takeLits_length_pos b rest 128 hcr (by omega)
        have hlenle := takeLits_length_le (b :: rest) 128
        rw [rleEncodeF_fuelIrrel rest.length
          ((b :: rest).drop (takeLits (b :: rest) 128).length).length
          ((b :: rest).drop (takeLits (b :: rest) 128).length)
          (by simp only [List.length_drop, List.length_cons]; omega) (le_refl _)]
        rw [show rleEncodeF ((b :: rest).drop (takeLits (b :: rest) 128).length).length
            ((b :: rest).drop (takeLits (b :: rest) 128).length) =
            rleEncode ((b :: rest).drop (takeLits (b :: rest) 128).length) from rfl]
        rw [rleDecode_lits (takeLits (b :: rest) 128) _ (by omega) hlenle]
        rw [ih ((b :: rest).drop (takeLits (b :: rest) 128).length)
          (by simp only [List.length_drop, List.length_cons]; omega)]
        dsimp only
        rw [takeLits_append_drop (b :: rest) 128]

/-- RLE round-trip: decoding the encoding of any byte list returns it. -/
theorem rleRoundtrip (xs : List Nat) : rleDecode (rleEncode xs) = .ok xs :=
  rleRoundtripAux xs.length xs (le_refl _)
/-! ## ASCII85 codec

Modelled from the spec (§4.2, §8): 4-byte groups become 5 radix-85 digits in
the printable range `33..117`; a final partial group of `n` bytes (1–3)
becomes `n + 1` digits; the stream ends with the `~>` end-of-data marker; the
decoder validates the character range and group framing.  The concrete codec
implementation is not under `src/`. -/

/-- Pack four bytes into one 32-bit group value (big-endian). -/
def a85Val (b0 b1 b2 b3 : Nat) : Nat := b0 * 16777216 + b1 * 65536 + b2 * 256 + b3

/-- The five radix-85 digit characters of a 32-bit group value
(`85^4 = 52200625`, `85^3 = 614125`, `85^2 = 7225`). -/
def a85Digits5 (v : Nat) : List Nat :=
  [v / 52200625 % 85 + 33, v / 614125 % 85 + 33, v / 7225 % 85 + 33,
   v / 85 % 85 + 33, v % 85 + 33]

/-- Modelled from the spec: the ASCII85 group encoder — full 4-byte groups
become five digits; a trailing partial group of `n` bytes is padded with
zeros and contributes the first `n + 1` digits. -/
def a85EncodeGroups : List Nat → List Nat
  | b0 :: b1 :: b2 :: b3 :: rest => a85Digits5 (a85Val b0 b1 b2 b3) ++ a85EncodeGroups rest
  | [] => []
  | [b0] => (a85Digits5 (a85Val b0 0 0 0)).take 2
  | [b0, b1] => (a85Digits5 (a85Val b0 b1 0 0)).take 3
  | [b0, b1, b2] => (a85Digits5 (a85Val b0 b1 b2 0)).take 4

/-- Modelled from the spec: ASCII85 encoding — the digit stream followed by
the `~>` end-of-data marker (bytes `126 62`). -/
def a85Encode (xs : List Nat) : List Nat := a85EncodeGroups xs ++ [126, 62]

/-- Radix-85 value of a digit group. -/
def a85DigitVal (ds : List Nat) : Nat := ds.foldl (fun acc d => acc * 85 + d) 0

/-- Flush the pending digit group at the end-of-data marker: an empty group
is fine, a single digit is malformed, and a group of `n + 2` digits is padded
with the maximal digit `84` (character `u`) and yields `n + 1` bytes. -/
def a85Flush (ds : List Nat) : Except PdfErrorCode (List Nat) :=
  if ds.length = 0 then .ok []
  else if ds.length = 1 then .error .DecodeError
  else
    let v := a85DigitVal (ds ++ List.replicate (5 - ds.length) 84)
    if v < 4294967296 then .ok ((beBytes 4 v).take (ds.length - 1))
    else .error .DecodeError

/-- Modelled from the spec: the ASCII85 streaming decoder loop — `ds` is the
pending group of decoded digits (values `0..84`); out-of-alphabet bytes,
overflowing groups, a dangling single digit and a missing end-of-data marker
are `DecodeError`s. -/
def a85DecodeLoop : List Nat → List Nat → Except PdfErrorCode (List Nat)
  | _, [] => .error .DecodeError
  | ds, c :: rest =>
    if c = 126 then
      match rest with
      | c2 :: _ => if c2 = 62 then a85Flush ds else .error .DecodeError
      | [] => .error .DecodeError
    else if 33 ≤ c ∧ c ≤ 117 then
      if ds.length = 4 then
        let v := a85DigitVal (ds ++ [c - 33])
        if v < 4294967296 then
          match a85DecodeLoop [] rest with
          | .ok tail => .ok (beBytes 4 v ++ tail)
          | .error e => .error e
        else .error .DecodeError
      else a85DecodeLoop (ds ++ [c - 33]) rest
    else .error .DecodeError

/-- Modelled from the spec: ASCII85 decoding of a whole buffer. -/
def a85Decode (xs : List Nat) : Except PdfErrorCode (List Nat) := a85DecodeLoop [] xs

theorem a85DigitVal_digits (v : Nat) (hv : v < 4294967296) :
    a85DigitVal [v / 52200625 % 85, v / 614125 % 85, v / 7225 % 85, v / 85 % 85, v % 85] = v := by
  simp only [a85DigitVal, List.foldl]
  omega

theorem beBytes4_val (b0 b1 b2 b3 : Nat) (h0 : b0 < 256) (h1 : b1 < 256) (h2 : b2 < 256)
    (h3 : b3 < 256) : beBytes 4 (a85Val b0 b1 b2 b3) = [b0, b1, b2, b3] := by
  simp only [beBytes, a85Val, Nat.shiftRight_eq_div_pow]
  norm_num
  omega

theorem a85_step (ds : List Nat) (d : Nat) (rest : List Nat) (hd : d ≤ 84)
    (hlen : ds.length < 4) :
    a85DecodeLoop ds ((d + 33) :: rest) = a85DecodeLoop (ds ++ [d]) rest := by
  have h126 : ¬(d + 33 = 126) := by omega
  have hr : 33 ≤ d + 33 ∧ d + 33 ≤ 117 := by omega
  have hne : ¬(ds.length = 4) := by omega
  simp only [a85DecodeLoop, if_neg h126, if_pos hr, if_neg hne, Nat.add_sub_cancel]

theorem a85_step5 (ds : List Nat) (d : Nat) (rest : List Nat) (v : Nat) (hd : d ≤ 84)
    (hlen : ds.length = 4) (hveq : a85DigitVal (ds ++ [d]) = v) (hv : v < 4294967296) :
    a85DecodeLoop ds ((d + 33) :: rest) =
      match a85DecodeLoop [] rest with
      | .ok tail => .ok (beBytes 4 v ++ tail)
      | .error e => .error e := by
  have h126 : ¬(d + 33 = 126) := by omega
  have hr : 33 ≤ d + 33 ∧ d + 33 ≤ 117 := by omega
  simp only [a85DecodeLoop, if_neg h126, if_pos hr, if_pos hlen, Nat.add_sub_cancel, hveq,
    if_pos hv]

theorem a85_group (v : Nat) (rest : List Nat) (hv : v < 4294967296) :
    a85DecodeLoop [] (a85Digits5 v ++ rest) =
      match a85DecodeLoop [] rest with
      | .ok tail => .ok (beBytes 4 v ++ tail)
      | .error e => .error e := by
  have d0 : v / 52200625 % 85 ≤ 84 := by omega
  have d1 : v / 614125 % 85 ≤ 84 := by omega
  have d2 : v / 7225 % 85 ≤ 84 := by omega
  have d3 : v / 85 % 85 ≤ 84 := by omega
  have d4 : v % 85 ≤ 84 := by omega
  simp only [a85Digits5, List.cons_append, List.nil_append]
  rw [a85_step _ _ _ d0 (by simp), a85_step _ _ _ d1 (by simp), a85_step _ _ _ d2 (by simp),
      a85_step _ _ _ d3 (by simp),
      a85_step5 _ _ _ v d4 (by simp) (by simpa using a85DigitVal_digits v hv) hv]
theorem a85Flush_two (d0 d1 w : Nat) (hw : (d0 * 85 + d1) * 614125 + 614124 = w)
    (hlt : w < 4294967296) : a85Flush [d0, d1] = .ok [w / 16777216] := by
  have hval : a85DigitVal [d0, d1, 84, 84, 84] = w := by
    simp only [a85DigitVal, List.foldl]
    omega
  have hdig : w / 16777216 < 256 := by omega
  simp only [a85Flush, List.length_cons, List.length_nil]
  norm_num [List.replicate]
  rw [hval, if_pos hlt]
  simp only [beBytes, Nat.shiftRight_eq_div_pow]
  norm_num
  omega

theorem a85Flush_three (d0 d1 d2 w : Nat)
    (hw : ((d0 * 85 + d1) * 85 + d2) * 7225 + 7224 = w) (hlt : w < 4294967296) :
    a85Flush [d0, d1, d2] = .ok [w / 16777216, w / 65536 % 256] := by
  have hval : a85DigitVal [d0, d1, d2, 84, 84] = w := by
    simp only [a85DigitVal, List.foldl]
    omega
  have hdig : w / 16777216 < 256 := by omega
  simp only [a85Flush, List.length_cons, List.length_nil]
  norm_num [List.replicate]
  rw [hval, if_pos hlt]
  simp only [beBytes, Nat.shiftRight_eq_div_pow]
  norm_num
  omega

theorem a85Flush_four (d0 d1 d2 d3 w : Nat)
    (hw : (((d0 * 85 + d1) * 85 + d2) * 85 + d3) * 85 + 84 = w) (hlt : w < 4294967296) :
    a85Flush [d0, d1, d2, d3] = .ok [w / 16777216, w / 65536 % 256, w / 256 % 256] := by
  have hval : a85DigitVal [d0, d1, d2, d3, 84] = w := by
    simp only [a85DigitVal, List.foldl]
    omega
  have hdig : w / 16777216 < 256 := by omega
  simp only [a85Flush, List.length_cons, List.length_nil]
  norm_num [List.replicate]
  rw [hval, if_pos hlt]
  simp only [beBytes, Nat.shiftRight_eq_div_pow]
  norm_num
  omega
theorem a85_chain1 (v : Nat) (hv : v < 4294967296) :
    (v / 52200625 % 85) * 85 + v / 614125 % 85 = v / 614125 := by omega

theorem a85_chain2 (v : Nat) (hv : v < 4294967296) :
    ((v / 52200625 % 85) * 85 + v / 614125 % 85) * 85 + v / 7225 % 85 = v / 7225 := by omega

theorem a85_chain3 (v : Nat) (hv : v < 4294967296) :
    (((v / 52200625 % 85) * 85 + v / 614125 % 85) * 85 + v / 7225 % 85) * 85 + v / 85 % 85
      = v / 85 := by omega

theorem a85_tail0 : a85DecodeLoop [] [126, 62] = .ok [] := rfl

theorem a85_tail1 (b0 : Nat) (h0 : b0 < 256) :
    a85DecodeLoop [] ((a85Digits5 (a85Val b0 0 0 0)).take 2 ++ [126, 62]) = .ok [b0] := by
  have hVe : a85Val b0 0 0 0 = b0 * 16777216 := by simp [a85Val]
  rw [hVe]
  have hV : b0 * 16777216 < 4294967296 := by omega
  have hq : b0 * 16777216 ≤ b0 * 16777216 / 614125 * 614125 + 614124 ∧
      b0 * 16777216 / 614125 * 614125 ≤ b0 * 16777216 := by omega
  have ht : (a85Digits5 (b0 * 16777216)).take 2 =
      [b0 * 16777216 / 52200625 % 85 + 33, b0 * 16777216 / 614125 % 85 + 33] := rfl
  rw [ht]
  have d0 : b0 * 16777216 / 52200625 % 85 ≤ 84 := by omega
  have d1 : b0 * 16777216 / 614125 % 85 ≤ 84 := by omega
  simp only [List.cons_append, List.nil_append]
  rw [a85_step _ _ _ d0 (by simp), a85_step _ _ _ d1 (by simp)]
  simp only [List.nil_append, List.singleton_append]
  norm_num [a85DecodeLoop]
  rw [a85Flush_two _ _ (b0 * 16777216 / 614125 * 614125 + 614124)
    (by rw [a85_chain1 _ hV]) (by omega)]
  rw [show (b0 * 16777216 / 614125 * 614125 + 614124) / 16777216 = b0 from
    Nat.div_eq_of_lt_le (by omega) (by omega)]

theorem a85_tail2 (b0 b1 : Nat) (h0 : b0 < 256) (h1 : b1 < 256) :
    a85DecodeLoop [] ((a85Digits5 (a85Val b0 b1 0 0)).take 3 ++ [126, 62]) = .ok [b0, b1] := by
  have hVe : a85Val b0 b1 0 0 = b0 * 16777216 + b1 * 65536 := by simp [a85Val]
  rw [hVe]
  have hV : b0 * 16777216 + b1 * 65536 < 4294967296 := by omega
  have hq : b0 * 16777216 + b1 * 65536 ≤
        (b0 * 16777216 + b1 * 65536) / 7225 * 7225 + 7224 ∧
      (b0 * 16777216 + b1 * 65536) / 7225 * 7225 ≤ b0 * 16777216 + b1 * 65536 := by omega
  have ht : (a85Digits5 (b0 * 16777216 + b1 * 65536)).take 3 =
      [(b0 * 16777216 + b1 * 65536) / 52200625 % 85 + 33,
       (b0 * 16777216 + b1 * 65536) / 614125 % 85 + 33,
       (b0 * 16777216 + b1 * 65536) / 7225 % 85 + 33] := rfl
  rw [ht]
  have d0 : (b0 * 16777216 + b1 * 65536) / 52200625 % 85 ≤ 84 := by omega
  have d1 : (b0 * 16777216 + b1 * 65536) / 614125 % 85 ≤ 84 := by omega
  have d2 : (b0 * 16777216 + b1 * 65536) / 7225 % 85 ≤ 84 := by omega
  simp only [List.cons_append, List.nil_append]
  rw [a85_step _ _ _ d0 (by simp), a85_step _ _ _ d1 (by simp), a85_step _ _ _ d2 (by simp)]
  simp only [List.nil_append, List.singleton_append, List.cons_append]
  norm_num [a85DecodeLoop]
  rw [a85Flush_three _ _ _ ((b0 * 16777216 + b1 * 65536) / 7225 * 7225 + 7224)
    (by rw [a85_chain2 _ hV]) (by omega)]
  rw [show ((b0 * 16777216 + b1 * 65536) / 7225 * 7225 + 7224) / 16777216 = b0 from
    Nat.div_eq_of_lt_le (by omega) (by omega)]
  rw [show ((b0 * 16777216 + b1 * 65536) / 7225 * 7225 + 7224) / 65536 = b0 * 256 + b1 from
    Nat.div_eq_of_lt_le (by omega) (by omega)]
  simp only [Except.ok.injEq, List.cons.injEq, and_true, true_and]
  omega

theorem a85_tail3 (b0 b1 b2 : Nat) (h0 : b0 < 256) (h1 : b1 < 256) (h2 : b2 < 256) :
    a85DecodeLoop [] ((a85Digits5 (a85Val b0 b1 b2 0)).take 4 ++ [126, 62]) =
      .ok [b0, b1, b2] := by
  have hVe : a85Val b0 b1 b2 0 = b0 * 16777216 + b1 * 65536 + b2 * 256 := by simp [a85Val]
  rw [hVe]
  have hV : b0 * 16777216 + b1 * 65536 + b2 * 256 < 4294967296 := by omega
  have hq : b0 * 16777216 + b1 * 65536 + b2 * 256 ≤
        (b0 * 16777216 + b1 * 65536 + b2 * 256) / 85 * 85 + 84 ∧
      (b0 * 16777216 + b1 * 65536 + b2 * 256) / 85 * 85 ≤
        b0 * 16777216 + b1 * 65536 + b2 * 256 := by omega
  have ht : (a85Digits5 (b0 * 16777216 + b1 * 65536 + b2 * 256)).take 4 =
      [(b0 * 16777216 + b1 * 65536 + b2 * 256) / 52200625 % 85 + 33,
       (b0 * 16777216 + b1 * 65536 + b2 * 256) / 614125 % 85 + 33,
       (b0 * 16777216 + b1 * 65536 + b2 * 256) / 7225 % 85 + 33,
       (b0 * 16777216 + b1 * 65536 + b2 * 256) / 85 % 85 + 33] := rfl
  rw [ht]
  have d0 : (b0 * 16777216 + b1 * 65536 + b2 * 256) / 52200625 % 85 ≤ 84 := by omega
  have d1 : (b0 * 16777216 + b1 * 65536 + b2 * 256) / 614125 % 85 ≤ 84 := by omega
  have d2 : (b0 * 16777216 + b1 * 65536 + b2 * 256) / 7225 % 85 ≤ 84 := by omega
  have d3 : (b0 * 16777216 + b1 * 65536 + b2 * 256) / 85 % 85 ≤ 84 := by omega
  simp only [List.cons_append, List.nil_append]
  rw [a85_step _ _ _ d0 (by simp), a85_step _ _ _ d1 (by simp), a85_step _ _ _ d2 (by simp),
    a85_step _ _ _ d3 (by simp)]
  simp only [List.nil_append, List.singleton_append, List.cons_append]
  norm_num [a85DecodeLoop]
  rw [a85Flush_four _ _ _ _ ((b0 * 16777216 + b1 * 65536 + b2 * 256) / 85 * 85 + 84)
    (by rw [a85_chain3 _ hV]) (by omega)]
  rw [show ((b0 * 16777216 + b1 * 65536 + b2 * 256) / 85 * 85 + 84) / 16777216 = b0 from
    Nat.div_eq_of_lt_le (by omega) (by omega)]
  rw [show ((b0 * 16777216 + b1 * 65536 + b2 * 256) / 85 * 85 + 84) / 65536 =
      b0 * 256 + b1 from Nat.div_eq_of_lt_le (by omega) (by omega)]
  rw [show ((b0 * 16777216 + b1 * 65536 + b2 * 256) / 85 * 85 + 84) / 256 =
      (b0 * 256 + b1) * 256 + b2 from Nat.div_eq_of_lt_le (by omega) (by omega)]
  simp only [Except.ok.injEq, List.cons.injEq, and_true, true_and]
  omega
theorem a85GroupsAux (xs : List Nat) : (∀ b ∈ xs, b < 256) →
    a85DecodeLoop [] (a85EncodeGroups xs ++ [126, 62]) = .ok xs := by
  induction xs using a85EncodeGroups.induct with
  | case1 b0 b1 b2 b3 rest ih =>
    intro h
    have h0 : b0 < 256 := h b0 (by simp)
    have h1 : b1 < 256 := h b1 (by simp)
    have h2 : b2 < 256 := h b2 (by simp)
    have h3 : b3 < 256 := h b3 (by simp)
    have hrest : ∀ b ∈ rest, b < 256 := fun b hb => h b (by simp [hb])
    have hV : a85Val b0 b1 b2 b3 < 4294967296 := by simp only [a85Val]; omega
    simp only [a85EncodeGroups, List.append_assoc]
    rw [a85_group _ _ hV, ih hrest, beBytes4_val b0 b1 b2 b3 h0 h1 h2 h3]
    simp
  | case2 =>
    intro _
    simp only [a85EncodeGroups, List.nil_append]
    exact a85_tail0
  | case3 b0 =>
    intro h
    simp only [a85EncodeGroups]
    exact a85_tail1 b0 (h b0 (by simp))
  | case4 b0 b1 =>
    intro h
    simp only [a85EncodeGroups]
    exact a85_tail2 b0 b1 (h b0 (by simp)) (h b1 (by simp))
  | case5 b0 b1 b2 =>
    intro h
    simp only [a85EncodeGroups]
    exact a85_tail3 b0 b1 b2 (h b0 (by simp)) (h b1 (by simp)) (h b2 (by simp))

/-- ASCII85 round-trip: decoding the encoding of any byte list returns it. -/
theorem a85Roundtrip (xs : List Nat) (h : ∀ b ∈ xs, b < 256) :
    a85Decode (a85Encode xs) = .ok xs :=
  a85GroupsAux xs h
/-! ## LZW codec

Modelled from the spec (§4.2): an adaptive dictionary coder.  Codes `0..255`
are single bytes, `256` is the table-reset (clear) code, `257` is end of
data, and codes from `258` name table entries built incrementally; on
dictionary overflow the encoder emits the reset code and starts a fresh
table; the decoder rebuilds the same dictionary in lockstep and rejects
out-of-range codes and premature end of data.  The concrete codec
implementation is not under `src/`; following the spec's emphasis on table
management, the model works at the level of the code stream (the packing of
codes into 9–12-bit groups, where the early-change flag shifts the width
increment boundary, is abstracted away: the code sequence itself is the
encoded form). -/

/-- Number of table entries after which the encoder resets the dictionary
(codes `258 + i` must stay below `4096`). -/
def lzwTableLimit : Nat := 3838

/-- First index of `s` in the table (meaningful when `s` is a member). -/
def seqIdx (table : List (List Nat)) (s : List Nat) : Nat :=
  match table with
  | [] => 0
  | t :: ts => if t = s then 0 else seqIdx ts s + 1

/-- The code the encoder emits for a known sequence: single bytes are their
own code, table entries get code `258 + index`. -/
def lzwCodeOf (table : List (List Nat)) (s : List Nat) : Nat :=
  if s.length = 1 then s.headD 0 else 258 + seqIdx table s

/-- LZW encoder state: the dictionary of multi-byte sequences (entry `i` has
code `258 + i`) and the current pending sequence `w`. -/
structure LZWEncState where
  table : List (List Nat)
  w : List Nat
  deriving DecidableEq, Repr

/-- Modelled from the spec: one byte of LZW encoding.  If `w ++ [b]` is known
it becomes the new pending sequence; otherwise the code of `w` is emitted and
`w ++ [b]` enters the dictionary — unless the dictionary is full, in which
case the reset code follows and the table restarts empty. -/
def lzwEncStep (st : LZWEncState) (b : Nat) : LZWEncState × List Nat :=
  let wb := st.w ++ [b]
  if wb.length = 1 ∨ wb ∈ st.table then
    ({ st with w := wb }, [])
  else if st.table.length = lzwTableLimit then
    (⟨[], [b]⟩, [lzwCodeOf st.table st.w, 256])
  else
    (⟨st.table ++ [wb], [b]⟩, [lzwCodeOf st.table st.w])

/-- Run the encoder over a byte list, collecting emitted codes. -/
def lzwEncLoop (st : LZWEncState) : List Nat → LZWEncState × List Nat
  | [] => (st, [])
  | b :: bs =>
    match lzwEncStep st b with
    | (st1, out1) =>
      match lzwEncLoop st1 bs with
      | (st2, out2) => (st2, out1 ++ out2)

/-- Final codes of an encode session: the pending sequence, if any, followed
by the end-of-data code `257`. -/
def lzwFlush (st : LZWEncState) : List Nat :=
  (if st.w = [] then [] else [lzwCodeOf st.table st.w]) ++ [257]

/-- Modelled from the spec: whole-buffer LZW encoding — an initial clear
code, the incrementally emitted codes, the final pending code and end of
data. -/
def lzwEncode (xs : List Nat) : List Nat :=
  256 :: ((lzwEncLoop ⟨[], []⟩ xs).2 ++ lzwFlush (lzwEncLoop ⟨[], []⟩ xs).1)

/-- LZW decoder state: the rebuilt dictionary, the previously decoded
sequence (empty right after a clear code), and whether end of data was
seen. -/
structure LZWDecState where
  table : List (List Nat)
  prev : List Nat
  eod : Bool
  deriving DecidableEq, Repr

/-- Modelled from the spec: one code of LZW decoding, rebuilding the
dictionary in lockstep.  The clear code resets the table; a code one past the
current table is the just-defined entry (`prev ++ [prev.head]`); other
out-of-range codes are a `DecodeError`; codes after end of data are
ignored. -/
def lzwDecStep (st : LZWDecState) (c : Nat) : Except PdfErrorCode (LZWDecState × List Nat) :=
  if st.eod then .ok (st, [])
  else if c = 256 then .ok (⟨[], [], false⟩, [])
  else if c = 257 then .ok ({ st with eod := true }, [])
  else if c < 256 then
    let s := [c]
    let table1 := if st.prev = [] then st.table else st.table ++ [st.prev ++ s.take 1]
    .ok (⟨table1, s, false⟩, s)
  else
    match st.table[c - 258]? with
    | some s =>
      let table1 := if st.prev = [] then st.table else st.table ++ [st.prev ++ s.take 1]
      .ok (⟨table1, s, false⟩, s)
    | none =>
      if c - 258 = st.table.length ∧ st.prev ≠ [] then
        let s := st.prev ++ st.prev.take 1
        .ok (⟨st.table ++ [s], s, false⟩, s)
      else .error .DecodeError

/-- Thread a fallible per-symbol decoder through a list, concatenating the
output; the state-machine shape shared by the streaming decode hooks. -/
def streamFold (step : σ → Nat → Except PdfErrorCode (σ × List Nat)) :
    σ → List Nat → Except PdfErrorCode (σ × List Nat)
  | s, [] => .ok (s, [])
  | s, b :: bs =>
    match step s b with
    | .error e => .error e
    | .ok (s1, o1) =>
      match streamFold step s1 bs with
      | .error e => .error e
      | .ok (s2, o2) => .ok (s2, o1 ++ o2)

/-- The pristine LZW decoder state. -/
def lzwDecInit : LZWDecState := ⟨[], [], false⟩

/-- Modelled from the spec: whole-buffer LZW decoding; a stream that ends
without the end-of-data code is a `DecodeError` (premature end). -/
def lzwDecode (cs : List Nat) : Except PdfErrorCode (List Nat) :=
  match streamFold lzwDecStep lzwDecInit cs with
  | .ok (st, out) => if st.eod then .ok out else .error .DecodeError
  | .error e => .error e

/-- Every element of the list is a byte. -/
def lowBytes (l : List Nat) : Prop := ∀ b ∈ l, b < 256
theorem seqIdx_get (s : List Nat) : ∀ (table : List (List Nat)), s ∈ table →
    seqIdx table s < table.length ∧ table[seqIdx table s]? = some s := by
  intro table
  induction table with
  | nil => intro h; simp at h
  | cons t ts ih =>
    intro h
    by_cases ht : t = s
    · subst ht
      simp [seqIdx]
    · have hmem : s ∈ ts := by
        rcases List.mem_cons.mp h with h1 | h2
        · exact absurd h1.symm ht
        · exact h2
      obtain ⟨ihl, ihg⟩ := ih hmem
      refine ⟨?_, ?_⟩
      · simp only [seqIdx, if_neg ht, List.length_cons]
        omega
      · simp only [seqIdx, if_neg ht, List.getElem?_cons_succ]
        exact ihg

theorem streamFold_append (step : σ → Nat → Except PdfErrorCode (σ × List Nat))
    (s : σ) (xs ys : List Nat) :
    streamFold step s (xs ++ ys) =
      match streamFold step s xs with
      | .error e => .error e
      | .ok (s1, o1) =>
        match streamFold step s1 ys with
        | .error e => .error e
        | .ok (s2, o2) => .ok (s2, o1 ++ o2) := by
  induction xs generalizing s with
  | nil =>
    simp only [List.nil_append, streamFold]
    cases streamFold step s ys with
    | error e => rfl
    | ok p => simp
  | cons b bs ih =>
    simp only [List.cons_append, streamFold]
    cases step s b with
    | error e => rfl
    | ok p =>
      obtain ⟨s1, o1⟩ := p
      dsimp only
      simp only [List.append_eq]
      rw [ih s1]
      cases streamFold step s1 bs with
      | error e => rfl
      | ok q =>
        obtain ⟨s2, o2⟩ := q
        dsimp only
        cases streamFold step s2 ys with
        | error e => rfl
        | ok r =>
          obtain ⟨s3, o3⟩ := r
          dsimp only
          simp [List.append_assoc]

/-- Modelled from the spec: the lockstep relation between encoder and decoder
states during an LZW session — the decoder's dictionary trails the encoder's
by exactly the entry the encoder defined at its latest emission
(`prev ++ [head of the pending sequence]`). -/
inductive LZWInv : LZWEncState → LZWDecState → Prop
  | start : LZWInv ⟨[], []⟩ ⟨[], [], false⟩
  | fresh (b : Nat) (hb : b < 256) : LZWInv ⟨[], [b]⟩ ⟨[], [], false⟩
  | run (tbl : List (List Nat)) (p w : List Nat) (hp : p ≠ []) (hw : w ≠ [])
      (hlow : lowBytes w) (hknown : w.length = 1 ∨ w ∈ tbl ++ [p ++ w.take 1])
      (hlen : tbl.length + 1 ≤ lzwTableLimit) :
      LZWInv ⟨tbl ++ [p ++ w.take 1], w⟩ ⟨tbl, p, false⟩

theorem lzwCodeDec (tbl : List (List Nat)) (p w : List Nat) (hp : p ≠ []) (hw : w ≠ [])
    (hlow : lowBytes w) (hknown : w.length = 1 ∨ w ∈ tbl ++ [p ++ w.take 1]) :
    lzwDecStep ⟨tbl, p, false⟩ (lzwCodeOf (tbl ++ [p ++ w.take 1]) w) =
      .ok (⟨tbl ++ [p ++ w.take 1], w, false⟩, w) := by
  by_cases hlen1 : w.length = 1
  · obtain ⟨c, rfl⟩ : ∃ c, w = [c] := by
      cases w with
      | nil => simp at hw
      | cons c rest =>
        cases rest with
        | nil => exact ⟨c, rfl⟩
        | cons x xs => simp at hlen1
    have hc : c < 256 := hlow c (by simp)
    have hcode : lzwCodeOf (tbl ++ [p ++ [c].take 1]) [c] = c := by
      simp [lzwCodeOf]
    rw [hcode]
    simp only [lzwDecStep]
    rw [if_neg (by simp), if_neg (by omega), if_neg (by omega), if_pos hc]
    simp [hp]
  · have hmem : w ∈ tbl ++ [p ++ w.take 1] := hknown.resolve_left hlen1
    obtain ⟨hilt, higet⟩ := seqIdx_get w _ hmem
    have hcode : lzwCodeOf (tbl ++ [p ++ w.take 1]) w =
        258 + seqIdx (tbl ++ [p ++ w.take 1]) w := by
      simp [lzwCodeOf, hlen1]
    rw [hcode]
    simp only [lzwDecStep]
    rw [if_neg (by simp), if_neg (by omega), if_neg (by omega), if_neg (by omega)]
    have hsub : 258 + seqIdx (tbl ++ [p ++ w.take 1]) w - 258 =
        seqIdx (tbl ++ [p ++ w.take 1]) w := by omega
    rw [hsub]
    simp only [List.length_append, List.length_cons, List.length_nil] at hilt
    by_cases hcase : seqIdx (tbl ++ [p ++ w.take 1]) w < tbl.length
    · have hget : tbl[seqIdx (tbl ++ [p ++ w.take 1]) w]? = some w := by
        rw [List.getElem?_append, if_pos hcase] at higet
        exact higet
      rw [hget]
      simp [hp]
    · have hEq : seqIdx (tbl ++ [p ++ w.take 1]) w = tbl.length := by omega
      have hnone : tbl[seqIdx (tbl ++ [p ++ w.take 1]) w]? = none := by
        rw [List.getElem?_eq_none]
        omega
      rw [hnone]
      rw [if_pos ⟨hEq, hp⟩]
      have hwp : w = p ++ w.take 1 := by
        rw [hEq, List.getElem?_append, if_neg (by omega)] at higet
        simp at higet
        exact higet.symm
      have htke : w.take 1 = p.take 1 := by
        conv_lhs => rw [hwp]
        rw [List.take_append_eq_append_take]
        have hp1 : 1 - p.length = 0 := by
          cases p with
          | nil => simp at hp
          | cons _ _ => simp
        rw [hp1]
        simp
      have hsw : p ++ p.take 1 = w := by
        rw [← htke, ← hwp]
      rw [hsw, ← hwp]
theorem lzwStepPres (se : LZWEncState) (sd : LZWDecState) (b : Nat) (hb : b < 256)
    (hinv : LZWInv se sd) :
    ∃ sd1 out1,
      streamFold lzwDecStep sd (lzwEncStep se b).2 = .ok (sd1, out1) ∧
      LZWInv (lzwEncStep se b).1 sd1 ∧
      out1 ++ (lzwEncStep se b).1.w = se.w ++ [b] := by
  cases hinv with
  | start =>
    refine ⟨⟨[], [], false⟩, [], ?_, ?_, ?_⟩
    · simp [lzwEncStep, streamFold]
    · simpa [lzwEncStep] using LZWInv.fresh b hb
    · simp [lzwEncStep]
  | fresh b0 hb0 =>
    have hstep : lzwEncStep ⟨[], [b0]⟩ b = (⟨[[b0, b]], [b]⟩, [b0]) := by
      simp [lzwEncStep, lzwTableLimit, lzwCodeOf]
    have hdec : lzwDecStep ⟨[], [], false⟩ b0 = .ok (⟨[], [b0], false⟩, [b0]) := by
      simp only [lzwDecStep]
      rw [if_neg (by simp), if_neg (by omega), if_neg (by omega), if_pos hb0]
      simp
    refine ⟨⟨[], [b0], false⟩, [b0], ?_, ?_, ?_⟩
    · rw [hstep]
      simp only [streamFold, hdec]
      simp
    · rw [hstep]
      have := LZWInv.run [] [b0] [b] (by simp) (by simp)
        (by intro x hx; simp at hx; omega) (Or.inl (by simp)) (by simp [lzwTableLimit])
      simpa using this
    · rw [hstep]
  | run tbl p w hp hw hlow hknown hlen =>
    by_cases hkb : (w ++ [b]).length = 1 ∨ (w ++ [b]) ∈ tbl ++ [p ++ w.take 1]
    · have hstep : lzwEncStep ⟨tbl ++ [p ++ w.take 1], w⟩ b =
          (⟨tbl ++ [p ++ w.take 1], w ++ [b]⟩, []) := by
        simp only [lzwEncStep]
        rw [if_pos hkb]
      have htake : (w ++ [b]).take 1 = w.take 1 := by
        cases w with
        | nil => simp at hw
        | cons x xs => simp
      refine ⟨⟨tbl, p, false⟩, [], ?_, ?_, ?_⟩
      · rw [hstep]
        simp [streamFold]
      · rw [hstep]
        have := LZWInv.run tbl p (w ++ [b]) hp (by simp)
          (by
            intro x hx
            simp only [List.mem_append, List.mem_singleton] at hx
            rcases hx with h1 | h2
            · exact hlow x h1
            · omega)
          (by rw [htake]; exact hkb)
          hlen
        rw [htake] at this
        exact this
      · rw [hstep]
        simp
    · have hdec := lzwCodeDec tbl p w hp hw hlow hknown
      by_cases hov : (tbl ++ [p ++ w.take 1]).length = lzwTableLimit
      · have hstep : lzwEncStep ⟨tbl ++ [p ++ w.take 1], w⟩ b =
            (⟨[], [b]⟩, [lzwCodeOf (tbl ++ [p ++ w.take 1]) w, 256]) := by
          simp only [lzwEncStep, if_neg hkb, if_pos hov]
        refine ⟨⟨[], [], false⟩, w, ?_, ?_, ?_⟩
        · rw [hstep]
          simp only [streamFold, hdec]
          simp [lzwDecStep]
        · rw [hstep]
          exact LZWInv.fresh b hb
        · rw [hstep]
      · have hstep : lzwEncStep ⟨tbl ++ [p ++ w.take 1], w⟩ b =
            (⟨(tbl ++ [p ++ w.take 1]) ++ [w ++ [b]], [b]⟩,
             [lzwCodeOf (tbl ++ [p ++ w.take 1]) w]) := by
          simp only [lzwEncStep, if_neg hkb, if_neg hov]
        refine ⟨⟨tbl ++ [p ++ w.take 1], w, false⟩, w, ?_, ?_, ?_⟩
        · rw [hstep]
          simp only [streamFold, hdec]
          simp
        · rw [hstep]
          have hl2 : (tbl ++ [p ++ w.take 1]).length + 1 ≤ lzwTableLimit := by
            simp only [List.length_append, List.length_cons, List.length_nil] at hov ⊢
            omega
          have := LZWInv.run (tbl ++ [p ++ w.take 1]) w [b] hw (by simp)
            (by intro x hx; simp at hx; omega) (Or.inl (by simp)) hl2
          simpa using this
        · rw [hstep]

theorem lzwMain (xs : List Nat) : ∀ (se : LZWEncState) (sd : LZWDecState),
    lowBytes xs → LZWInv se sd →
    ∃ sd2 out,
      streamFold lzwDecStep sd (lzwEncLoop se xs).2 = .ok (sd2, out) ∧
      LZWInv (lzwEncLoop se xs).1 sd2 ∧
      out ++ (lzwEncLoop se xs).1.w = se.w ++ xs := by
  induction xs with
  | nil =>
    intro se sd _ hinv
    exact ⟨sd, [], by simp [lzwEncLoop, streamFold], by simpa [lzwEncLoop], by simp [lzwEncLoop]⟩
  | cons b bs ih =>
    intro se sd hlow hinv
    have hb : b < 256 := hlow b (by simp)
    have hbs : lowBytes bs := fun x hx => hlow x (by simp [hx])
    obtain ⟨sd1, o1, hf1, hinv1, ho1⟩ := lzwStepPres se sd b hb hinv
    obtain ⟨sd2, o2, hf2, hinv2, ho2⟩ := ih (lzwEncStep se b).1 sd1 hbs hinv1
    rcases hse : lzwEncStep se b with ⟨s1x, o1x⟩
    rw [hse] at hf1 hinv1 ho1 hf2 hinv2 ho2
    dsimp only at hf1 hinv1 ho1 hf2 hinv2 ho2
    refine ⟨sd2, o1 ++ o2, ?_, ?_, ?_⟩
    · simp only [lzwEncLoop, hse]
      rcases hloop : lzwEncLoop s1x bs with ⟨s2x, o2x⟩
      rw [hloop] at hf2
      dsimp only at hf2 ⊢
      rw [streamFold_append, hf1]
      dsimp only
      rw [hf2]
    · simp only [lzwEncLoop, hse]
      rcases hloop : lzwEncLoop s1x bs with ⟨s2x, o2x⟩
      rw [hloop] at hinv2
      dsimp only at hinv2 ⊢
      exact hinv2
    · simp only [lzwEncLoop, hse]
      rcases hloop : lzwEncLoop s1x bs with ⟨s2x, o2x⟩
      rw [hloop] at ho2
      dsimp only at ho2 ⊢
      rw [List.append_assoc, ho2, ← List.append_assoc, ho1]
      simp

theorem lzwFlushDec (se : LZWEncState) (sd : LZWDecState) (hinv : LZWInv se sd) :
    ∃ sd2, streamFold lzwDecStep sd (lzwFlush se) = .ok (sd2, se.w) ∧ sd2.eod = true := by
  cases hinv with
  | start =>
    exact ⟨⟨[], [], true⟩, by simp [lzwFlush, streamFold, lzwDecStep], rfl⟩
  | fresh b0 hb0 =>
    have hdec : lzwDecStep ⟨[], [], false⟩ b0 = .ok (⟨[], [b0], false⟩, [b0]) := by
      simp only [lzwDecStep]
      rw [if_neg (by simp), if_neg (by omega), if_neg (by omega), if_pos hb0]
      simp
    refine ⟨⟨[], [b0], true⟩, ?_, rfl⟩
    have hflush : lzwFlush ⟨[], [b0]⟩ = [b0, 257] := by
      simp [lzwFlush, lzwCodeOf]
    rw [hflush]
    simp only [streamFold, hdec]
    simp [lzwDecStep]
  | run tbl p w hp hw hlow hknown hlen =>
    have hdec := lzwCodeDec tbl p w hp hw hlow hknown
    refine ⟨⟨tbl ++ [p ++ w.take 1], w, true⟩, ?_, rfl⟩
    have hflush : lzwFlush ⟨tbl ++ [p ++ w.take 1], w⟩ =
        [lzwCodeOf (tbl ++ [p ++ w.take 1]) w, 257] := by
      simp [lzwFlush, hw]
    rw [hflush]
    simp only [streamFold, hdec]
    simp [lzwDecStep]

/-- LZW round-trip: decoding the encoding of any byte list returns it. -/
theorem lzwRoundtrip (xs : List Nat) (h : lowBytes xs) : lzwDecode (lzwEncode xs) = .ok xs := by
  obtain ⟨sd2, out, hfold, hinv2, hout⟩ := lzwMain xs ⟨[], []⟩ ⟨[], [], false⟩ h LZWInv.start
  obtain ⟨sd3, hfold3, heod⟩ := lzwFlushDec _ _ hinv2
  unfold lzwEncode lzwDecode
  simp only [streamFold]
  rw [show lzwDecStep lzwDecInit 256 = .ok (⟨[], [], false⟩, []) from rfl]
  dsimp only
  rw [streamFold_append, hfold]
  dsimp only
  rw [hfold3]
  dsimp only
  simp only [heod, if_true]
  simp only [List.nil_append] at hout
  rw [List.nil_append, hout]

/-! ## Codec instances behind the engine interface

Each concrete codec is packaged as a `Codec` record.  Per the block contract
of `PdfFilter.h` (a filter "need not immediately process the buffer, and
might internally buffer some or all of it"), the whole-buffer algorithms
buffer their input and emit output at the end hook; the LZW and Deflate
decoders are streaming, consuming their input symbol by symbol. -/

/-- Modelled from the spec: the RLE codec. -/
def rleCodec : Codec (List Nat) where
  init := []
  beginEncodeImpl := fun _ => ([], [])
  encodeBlockImpl := fun s v => (s ++ v, [])
  endEncodeImpl := fun s => ([], rleEncode s)
  beginDecodeImpl := fun _ _ => ([], [])
  decodeBlockImpl := fun s v => .ok (s ++ v, [])
  endDecodeImpl := fun s =>
    match rleDecode s with
    | .ok out => .ok ([], out)
    | .error e => .error e

/-- Modelled from the spec: the ASCII85 codec. -/
def a85Codec : Codec (List Nat) where
  init := []
  beginEncodeImpl := fun _ => ([], [])
  encodeBlockImpl := fun s v => (s ++ v, [])
  endEncodeImpl := fun s => ([], a85Encode s)
  beginDecodeImpl := fun _ _ => ([], [])
  decodeBlockImpl := fun s v => .ok (s ++ v, [])
  endDecodeImpl := fun s =>
    match a85Decode s with
    | .ok out => .ok ([], out)
    | .error e => .error e

/-- Combined LZW codec state: the encode-side buffer and the streaming
decoder state. -/
structure LZWCodecState where
  encBuf : List Nat
  dec : LZWDecState
  deriving DecidableEq, Repr

/-- Modelled from the spec: the LZW codec — buffered encode, streaming
decode, with the premature-end check at the end hook. -/
def lzwCodec : Codec LZWCodecState where
  init := ⟨[], lzwDecInit⟩
  beginEncodeImpl := fun s => (s, [])
  encodeBlockImpl := fun s v => ({ s with encBuf := s.encBuf ++ v }, [])
  endEncodeImpl := fun s => (⟨[], s.dec⟩, lzwEncode s.encBuf)
  beginDecodeImpl := fun s _ => (s, [])
  decodeBlockImpl := fun s v =>
    match streamFold lzwDecStep s.dec v with
    | .ok (d, out) => .ok ({ s with dec := d }, out)
    | .error e => .error e
  endDecodeImpl := fun s =>
    if s.dec.eod then .ok (⟨[], lzwDecInit⟩, []) else .error .DecodeError

/-- Modelled from the spec: the external zlib-compatible backend the Deflate
codec wraps — a one-shot compressor and a streaming byte-wise inflater with
its finalization.  The deflate/inflate mathematics is out of scope
(external, audited); theorems about this codec quantify over every backend
satisfying the documented contract `FlateOk`. -/
structure FlateBackend (σ : Type) where
  deflateRaw : List Nat → List Nat
  inflInit : σ
  inflStep : σ → Nat → Except PdfErrorCode (σ × List Nat)
  inflFinish : σ → Except PdfErrorCode (List Nat)

/-- Deflate codec state: the encode-side buffer and the backend inflater
state. -/
structure FlateState (σ : Type) where
  encBuf : List Nat
  dec : σ

/-- Modelled from the spec: the Deflate codec over a zlib backend. -/
def flateCodec (fb : FlateBackend σ) : Codec (FlateState σ) where
  init := ⟨[], fb.inflInit⟩
  beginEncodeImpl := fun s => (s, [])
  encodeBlockImpl := fun s v => ({ s with encBuf := s.encBuf ++ v }, [])
  endEncodeImpl := fun s => (⟨[], s.dec⟩, fb.deflateRaw s.encBuf)
  beginDecodeImpl := fun s _ => (s, [])
  decodeBlockImpl := fun s v =>
    match streamFold fb.inflStep s.dec v with
    | .ok (d, out) => .ok ({ s with dec := d }, out)
    | .error e => .error e
  endDecodeImpl := fun s =>
    match fb.inflFinish s.dec with
    | .ok out => .ok (⟨[], fb.inflInit⟩, out)
    | .error e => .error e

/-- The zlib round-trip contract stated by the spec ("zlib-compatible
deflate/inflate semantics"): streaming inflate of a deflated buffer, plus
finalization, recovers the buffer. -/
def FlateOk (fb : FlateBackend σ) : Prop :=
  ∀ x : List Nat, ∃ s o1 o2,
    streamFold fb.inflStep fb.inflInit (fb.deflateRaw x) = .ok (s, o1) ∧
    fb.inflFinish s = .ok o2 ∧ o1 ++ o2 = x

/-- Thread an infallible per-byte cipher transform through a list. -/
def streamFoldT (step : σ → Nat → σ × List Nat) : σ → List Nat → σ × List Nat
  | s, [] => (s, [])
  | s, b :: bs =>
    match step s b with
    | (s1, o1) =>
      match streamFoldT step s1 bs with
      | (s2, o2) => (s2, o1 ++ o2)

/-- Modelled from the spec: the external cipher backend the StreamCipher
codec wraps (RC4 or AES-CBC through the crypto context) — per-byte
encryption with a padding/finalization flush, and the fallible decryption
direction.  The cipher mathematics is out of scope (external, audited);
theorems quantify over every backend satisfying `CryptOk`. -/
structure CryptBackend (σ τ : Type) where
  encInit : σ
  encStep : σ → Nat → σ × List Nat
  encFinish : σ → List Nat
  decInit : τ
  decStep : τ → Nat → Except PdfErrorCode (τ × List Nat)
  decFinish : τ → Except PdfErrorCode (List Nat)

/-- Modelled from the spec: the StreamCipher codec over a cipher backend;
partial final blocks live in the backend state until the end hook flushes
them. -/
def cryptCodec (cb : CryptBackend σ τ) : Codec (σ × τ) where
  init := (cb.encInit, cb.decInit)
  beginEncodeImpl := fun s => (s, [])
  encodeBlockImpl := fun s v =>
    match streamFoldT cb.encStep s.1 v with
    | (e1, out) => ((e1, s.2), out)
  endEncodeImpl := fun s => ((cb.encInit, s.2), cb.encFinish s.1)
  beginDecodeImpl := fun s _ => (s, [])
  decodeBlockImpl := fun s v =>
    match streamFold cb.decStep s.2 v with
    | .ok (d1, out) => .ok ((s.1, d1), out)
    | .error e => .error e
  endDecodeImpl := fun s =>
    match cb.decFinish s.2 with
    | .ok out => .ok ((s.1, cb.decInit), out)
    | .error e => .error e

/-- The cipher round-trip contract from the spec: decrypting the whole
ciphertext (streamed bytes plus the finalization flush) recovers the
plaintext. -/
def CryptOk (cb : CryptBackend σ τ) : Prop :=
  ∀ x : List Nat, ∃ s o1 o2,
    streamFold cb.decStep cb.decInit
      ((streamFoldT cb.encStep cb.encInit x).2 ++
        cb.encFinish (streamFoldT cb.encStep cb.encInit x).1) = .ok (s, o1) ∧
    cb.decFinish s = .ok o2 ∧ o1 ++ o2 = x

/-! ## One-shot wrappers reduced to the codec algorithms -/

theorem EncodeTo_rle (x : List Nat) : EncodeTo rleCodec x = .ok (rleEncode x) := rfl

theorem DecodeTo_rle (y : List Nat) : DecodeTo rleCodec y none = rleDecode y := by
  cases hr : rleDecode y with
  | ok out => simp [DecodeTo, BeginDecode, DecodeBlock, EndDecode, rleCodec, hr]
  | error e => simp [DecodeTo, BeginDecode, DecodeBlock, EndDecode, rleCodec, hr]

theorem EncodeTo_a85 (x : List Nat) : EncodeTo a85Codec x = .ok (a85Encode x) := rfl

theorem DecodeTo_a85 (y : List Nat) : DecodeTo a85Codec y none = a85Decode y := by
  cases hr : a85Decode y with
  | ok out => simp [DecodeTo, BeginDecode, DecodeBlock, EndDecode, a85Codec, hr]
  | error e => simp [DecodeTo, BeginDecode, DecodeBlock, EndDecode, a85Codec, hr]

theorem EncodeTo_lzw (x : List Nat) : EncodeTo lzwCodec x = .ok (lzwEncode x) := rfl

theorem DecodeTo_lzw (y : List Nat) : DecodeTo lzwCodec y none = lzwDecode y := by
  unfold lzwDecode
  cases hr : streamFold lzwDecStep lzwDecInit y with
  | ok p =>
    obtain ⟨st, out⟩ := p
    cases he : st.eod with
    | true => simp [DecodeTo, BeginDecode, DecodeBlock, EndDecode, lzwCodec, hr, he]
    | false => simp [DecodeTo, BeginDecode, DecodeBlock, EndDecode, lzwCodec, hr, he]
  | error e => simp [DecodeTo, BeginDecode, DecodeBlock, EndDecode, lzwCodec, hr]

theorem EncodeTo_flate (fb : FlateBackend σ) (x : List Nat) :
    EncodeTo (flateCodec fb) x = .ok (fb.deflateRaw x) := rfl

theorem DecodeTo_flate (fb : FlateBackend σ) (y : List Nat) :
    DecodeTo (flateCodec fb) y none =
      match streamFold fb.inflStep fb.inflInit y with
      | .ok (s, o1) =>
        match fb.inflFinish s with
        | .ok o2 => .ok (o1 ++ o2)
        | .error e => .error e
      | .error e => .error e := by
  cases hr : streamFold fb.inflStep fb.inflInit y with
  | ok p =>
    obtain ⟨s, o1⟩ := p
    cases hf : fb.inflFinish s with
    | ok o2 => simp [DecodeTo, BeginDecode, DecodeBlock, EndDecode, flateCodec, hr, hf]
    | error e => simp [DecodeTo, BeginDecode, DecodeBlock, EndDecode, flateCodec, hr, hf]
  | error e => simp [DecodeTo, BeginDecode, DecodeBlock, EndDecode, flateCodec, hr]

theorem EncodeTo_crypt (cb : CryptBackend σ τ) (x : List Nat) :
    EncodeTo (cryptCodec cb) x =
      .ok ((streamFoldT cb.encStep cb.encInit x).2 ++
        cb.encFinish (streamFoldT cb.encStep cb.encInit x).1) := by
  rcases hsf : streamFoldT cb.encStep cb.encInit x with ⟨e1, o1⟩
  simp [EncodeTo, BeginEncode, EncodeBlock, EndEncode, cryptCodec, hsf]

theorem DecodeTo_crypt (cb : CryptBackend σ τ) (y : List Nat) :
    DecodeTo (cryptCodec cb) y none =
      match streamFold cb.decStep cb.decInit y with
      | .ok (s, o1) =>
        match cb.decFinish s with
        | .ok o2 => .ok (o1 ++ o2)
        | .error e => .error e
      | .error e => .error e := by
  cases hr : streamFold cb.decStep cb.decInit y with
  | ok p =>
    obtain ⟨s, o1⟩ := p
    cases hf : cb.decFinish s with
    | ok o2 => simp [DecodeTo, BeginDecode, DecodeBlock, EndDecode, cryptCodec, hr, hf]
    | error e => simp [DecodeTo, BeginDecode, DecodeBlock, EndDecode, cryptCodec, hr, hf]
  | error e => simp [DecodeTo, BeginDecode, DecodeBlock, EndDecode, cryptCodec, hr]

/-! ## Chunked progressive decoding -/

/-- Run a sequence of `DecodeBlock` calls on consecutive chunks, stopping at
the first error and concatenating the bytes written to the sink. -/
def DecodeBlockSeq (c : Codec σ) (e : FilterEngine σ) :
    List (List Nat) → Except PdfErrorCode (FilterEngine σ × List Nat)
  | [] => .ok (e, [])
  | v :: vs =>
    match (DecodeBlock c e v).1 with
    | .error err => .error err
    | .ok (e1, o1) =>
      match DecodeBlockSeq c e1 vs with
      | .error err => .error err
      | .ok (e2, o2) => .ok (e2, o1 ++ o2)

/-- A streaming decode hook: does nothing on an empty span and decomposes
over concatenation of spans. -/
def StreamingDecode (c : Codec σ) : Prop :=
  (∀ s, c.decodeBlockImpl s [] = .ok (s, [])) ∧
  (∀ s xs ys, c.decodeBlockImpl s (xs ++ ys) =
    match c.decodeBlockImpl s xs with
    | .error e => .error e
    | .ok (s1, o1) =>
      match c.decodeBlockImpl s1 ys with
      | .error e => .error e
      | .ok (s2, o2) => .ok (s2, o1 ++ o2))

theorem DecodeBlockSeq_join (c : Codec σ) (hsd : StreamingDecode c) :
    ∀ (chunks : List (List Nat)) (e : FilterEngine σ), e.state = .activeDecoding →
      DecodeBlockSeq c e chunks = (DecodeBlock c e chunks.flatten).1 := by
  intro chunks
  induction chunks with
  | nil =>
    intro e he
    obtain ⟨st, cs, sb⟩ := e
    have hst : st = .activeDecoding := he
    subst hst
    simp only [DecodeBlockSeq, List.flatten_nil, DecodeBlock, hsd.1]
  | cons v vs ih =>
    intro e he
    obtain ⟨st, cs, sb⟩ := e
    have hst : st = .activeDecoding := he
    subst hst
    simp only [DecodeBlockSeq, List.flatten_cons, DecodeBlock]
    rw [hsd.2 cs v vs.flatten]
    cases c.decodeBlockImpl cs v with
    | error err => rfl
    | ok p =>
      obtain ⟨s1, o1⟩ := p
      dsimp only
      rw [ih ⟨.activeDecoding, s1, sb⟩ rfl]
      simp only [DecodeBlock]
      cases c.decodeBlockImpl s1 vs.flatten with
      | error err => rfl
      | ok q =>
        obtain ⟨s2, o2⟩ := q
        rfl

theorem lzwCodec_streaming : StreamingDecode lzwCodec := by
  constructor
  · intro s
    simp [lzwCodec, streamFold]
  · intro s xs ys
    simp only [lzwCodec]
    rw [streamFold_append]
    cases streamFold lzwDecStep s.dec xs with
    | error e => rfl
    | ok p =>
      obtain ⟨d1, o1⟩ := p
      dsimp only
      cases streamFold lzwDecStep d1 ys with
      | error e => rfl
      | ok q => obtain ⟨d2, o2⟩ := q; rfl

theorem flateCodec_streaming (fb : FlateBackend σ) : StreamingDecode (flateCodec fb) := by
  constructor
  · intro s
    simp [flateCodec, streamFold]
  · intro s xs ys
    simp only [flateCodec]
    rw [streamFold_append]
    cases streamFold fb.inflStep s.dec xs with
    | error e => rfl
    | ok p =>
      obtain ⟨d1, o1⟩ := p
      dsimp only
      cases streamFold fb.inflStep d1 ys with
      | error e => rfl
      | ok q => obtain ⟨d2, o2⟩ := q; rfl

/-! ## Concrete backends and crypto-context support lemmas -/

/-- A trivial identity backend, used to instantiate the backend-parameterized
theorems at a concrete point. -/
def echoFlate : FlateBackend Unit where
  deflateRaw := fun x => x
  inflInit := ()
  inflStep := fun s b => .ok (s, [b])
  inflFinish := fun _ => .ok []

theorem streamFold_echo (x : List Nat) :
    streamFold (fun (s : Unit) b => .ok (s, [b])) () x = .ok ((), x) := by
  induction x with
  | nil => rfl
  | cons b bs ih => simp [streamFold, ih]

theorem echoFlate_ok : FlateOk echoFlate := by
  intro x
  refine ⟨(), x, [], ?_, rfl, by simp⟩
  simpa [echoFlate] using streamFold_echo x

/-- A trivial identity cipher backend. -/
def echoCrypt : CryptBackend Unit Unit where
  encInit := ()
  encStep := fun s b => (s, [b])
  encFinish := fun _ => []
  decInit := ()
  decStep := fun s b => .ok (s, [b])
  decFinish := fun _ => .ok []

theorem streamFoldT_echo (x : List Nat) :
    streamFoldT (fun (s : Unit) b => (s, [b])) () x = ((), x) := by
  induction x with
  | nil => rfl
  | cons b bs ih => simp [streamFoldT, ih]

theorem echoCrypt_ok : CryptOk echoCrypt := by
  intro x
  refine ⟨(), x, [], ?_, rfl, by simp⟩
  show streamFold (fun (s : Unit) b => .ok (s, [b])) ()
    ((streamFoldT (fun (s : Unit) b => (s, [b])) () x).2 ++ []) = .ok ((), x)
  rw [streamFoldT_echo x]
  simpa using streamFold_echo x

theorem Init_ok_allSet (m m2 : OpenSSLMain) (env : InitEnv)
    (h : OpenSSLMain.Init m env = (m2, none)) : allSet m2 := by
  rcases env with ⟨a, b, c⟩
  cases a <;> cases b <;> cases c <;> simp only [OpenSSLMain.Init] at h <;> simp at h
  all_goals subst h
  all_goals simp [allSet]

theorem Init_err_unset (m m2 : OpenSSLMain) (env : InitEnv) (e : PdfErrorCode)
    (hu : allUnset m) (h : OpenSSLMain.Init m env = (m2, some e)) : allUnset m2 := by
  obtain ⟨u1, u2, u3, u4, u5, u6, u7, u8⟩ := hu
  rcases env with ⟨a, b, c⟩
  cases a <;> cases b <;> cases c <;> simp only [OpenSSLMain.Init] at h <;> simp at h
  all_goals obtain ⟨h1, h2⟩ := h
  all_goals subst h1
  all_goals simp [allUnset, u1, u2, u3, u4, u5, u6, u7, u8]

/-- The reachable-state invariant of the crypto context: the handle set is
fully populated exactly when the once-guard has fired. -/
def GoodSSL (g : SSLGlobal) : Prop :=
  (g.initialized = true → allSet g.main) ∧ (g.initialized = false → allUnset g.main)

theorem sslInit_cases (g : SSLGlobal) (env : InitEnv) (hg : GoodSSL g) :
    GoodSSL (sslInit g env).1 ∧
    ((sslInit g env).2.2 = true → g.initialized = false ∧ (sslInit g env).1.initialized = true) ∧
    ((sslInit g env).2.2 = false → (sslInit g env).1.initialized = g.initialized) := by
  rcases g with ⟨m, ini⟩
  cases ini with
  | true =>
    refine ⟨hg, ?_, ?_⟩ <;> simp [sslInit]
  | false =>
    cases hini : OpenSSLMain.Init m env with
    | mk m2 err =>
      cases err with
      | none =>
        have h1 : sslInit ⟨m, false⟩ env = (⟨m2, true⟩, none, true) := by
          simp [sslInit, hini]
        rw [h1]
        refine ⟨⟨fun _ => Init_ok_allSet m m2 env hini, fun hf => by simp at hf⟩, ?_, ?_⟩
        · intro _
          exact ⟨rfl, rfl⟩
        · intro hf
          simp at hf
      | some e =>
        have h1 : sslInit ⟨m, false⟩ env = (⟨m2, false⟩, some e, false) := by
          simp [sslInit, hini]
        rw [h1]
        refine ⟨⟨fun ht => by simp at ht,
          fun _ => Init_err_unset m m2 env e (hg.2 rfl) hini⟩, ?_, ?_⟩
        · intro hf
          simp at hf
        · intro _
          rfl

theorem sslRun_inv : ∀ (ops : List SSLOp) (g : SSLGlobal), GoodSSL g →
    GoodSSL (sslRun g ops).1 ∧
    (sslRun g ops).2 + (if g.initialized then 1 else 0) ≤ 1 := by
  intro ops
  induction ops with
  | nil =>
    intro g hg
    refine ⟨hg, ?_⟩
    simp only [sslRun]
    split <;> omega
  | cons op ops ih =>
    intro g hg
    have henv : ∃ env,
        sslStep g op = ((sslInit g env).1, if (sslInit g env).2.2 then 1 else 0) := by
      cases op with
      | initCall env => exact ⟨env, by simp [sslStep]⟩
      | accessor env => exact ⟨env, by simp [sslStep]⟩
    obtain ⟨env, hstep⟩ := henv
    obtain ⟨hgood1, hran, hnot⟩ := sslInit_cases g env hg
    have hrec := ih (sslInit g env).1 hgood1
    simp only [sslRun, hstep]
    rcases hcount : sslRun (sslInit g env).1 ops with ⟨g2, n2⟩
    rw [hcount] at hrec
    dsimp only at hrec ⊢
    refine ⟨hrec.1, ?_⟩
    cases hb : (sslInit g env).2.2 with
    | true =>
      obtain ⟨h1, h2⟩ := hran hb
      rw [h2] at hrec
      simp only [hb, h1, if_true] at hrec ⊢
      simp only [if_neg (by simp : ¬(false = true))]
      omega
    | false =>
      rw [hnot hb] at hrec
      cases hgi : g.initialized with
      | true =>
        simp only [hgi, if_true] at hrec ⊢
        simp only [if_neg (by simp : ¬(false = true))]
        omega
      | false =>
        simp only [hgi] at hrec ⊢
        simp only [if_neg (by simp : ¬(false = true))] at hrec ⊢
        omega

/-! ## The claims -/

/-- Claim C1: for every Filter Engine in the `Idle` or `Failed` state, any
call to `EncodeBlock`, `DecodeBlock`, `EndEncode` or `EndDecode` signals
`UsageError` immediately, invokes none of the Codec's virtual hook
implementations (the hook list of the result is empty), and produces no
output; this holds for every Codec and every input span, so it holds until a
`Begin` call changes the state. -/
theorem C1_idle_failed_reject {σ : Type} (c : Codec σ) (e : FilterEngine σ)
    (v : List Nat) (h : e.state = .idle ∨ e.state = .failed) :
    EncodeBlock c e v = (.error .UsageError, []) ∧
    DecodeBlock c e v = (.error .UsageError, []) ∧
    EndEncode c e = (.error .UsageError, []) ∧
    EndDecode c e = (.error .UsageError, []) := by
  obtain ⟨st, cs, sb⟩ := e
  rcases h with h | h
  · have h1 : st = .idle := h
    subst h1
    exact ⟨rfl, rfl, rfl, rfl⟩
  · have h1 : st = .failed := h
    subst h1
    exact ⟨rfl, rfl, rfl, rfl⟩

/-- Claim C1, witness: a failed RLE engine rejects each of the four calls. -/
theorem C1_witness :
    EncodeBlock rleCodec ⟨.failed, [], false⟩ [1] = (.error .UsageError, []) ∧
    DecodeBlock rleCodec ⟨.failed, [], false⟩ [1] = (.error .UsageError, []) ∧
    EndEncode rleCodec ⟨.failed, [], false⟩ = (.error .UsageError, []) ∧
    EndDecode rleCodec ⟨.failed, [], false⟩ = (.error .UsageError, []) :=
  C1_idle_failed_reject rleCodec ⟨.failed, [], false⟩ [1] (Or.inr rfl)

/-- Claim C2: for every supported Codec and every byte sequence `x`,
`DecodeTo` applied to the output of `EncodeTo` yields exactly `x` — for RLE
unconditionally, for ASCII85 and LZW for every sequence of bytes, and for
Deflate and the stream cipher for every backend satisfying its documented
round-trip contract. -/
theorem C2_roundtrip :
    (∀ x : List Nat, ∃ enc,
      EncodeTo rleCodec x = .ok enc ∧ DecodeTo rleCodec enc none = .ok x) ∧
    (∀ x : List Nat, lowBytes x → ∃ enc,
      EncodeTo a85Codec x = .ok enc ∧ DecodeTo a85Codec enc none = .ok x) ∧
    (∀ x : List Nat, lowBytes x → ∃ enc,
      EncodeTo lzwCodec x = .ok enc ∧ DecodeTo lzwCodec enc none = .ok x) ∧
    (∀ (σ : Type) (fb : FlateBackend σ), FlateOk fb → ∀ x : List Nat, ∃ enc,
      EncodeTo (flateCodec fb) x = .ok enc ∧
        DecodeTo (flateCodec fb) enc none = .ok x) ∧
    (∀ (σ τ : Type) (cb : CryptBackend σ τ), CryptOk cb → ∀ x : List Nat, ∃ enc,
      EncodeTo (cryptCodec cb) x = .ok enc ∧
        DecodeTo (cryptCodec cb) enc none = .ok x) := by
  refine ⟨?_, ?_, ?_, ?_, ?_⟩
  · intro x
    refine ⟨rleEncode x, EncodeTo_rle x, ?_⟩
    rw [DecodeTo_rle]
    exact rleRoundtrip x
  · intro x hx
    refine ⟨a85Encode x, EncodeTo_a85 x, ?_⟩
    rw [DecodeTo_a85]
    exact a85Roundtrip x hx
  · intro x hx
    refine ⟨lzwEncode x, EncodeTo_lzw x, ?_⟩
    rw [DecodeTo_lzw]
    exact lzwRoundtrip x hx
  · intro σ fb hok x
    obtain ⟨s, o1, o2, h1, h2, h3⟩ := hok x
    refine ⟨fb.deflateRaw x, EncodeTo_flate fb x, ?_⟩
    rw [DecodeTo_flate, h1]
    dsimp only
    rw [h2]
    dsimp only
    rw [h3]
  · intro σ τ cb hok x
    obtain ⟨s, o1, o2, h1, h2, h3⟩ := hok x
    refine ⟨_, EncodeTo_crypt cb x, ?_⟩
    rw [DecodeTo_crypt, h1]
    dsimp only
    rw [h2]
    dsimp only
    rw [h3]

/-- Claim C2, witness: the round-trip at concrete inputs — a run of 130
identical bytes through RLE (the boundary case the claim singles out), the
bytes of "Man" (length 3, not a multiple of ASCII85's block size 4) through
ASCII85, a repetitive string through LZW, and concrete identity backends for
Deflate and the stream cipher. -/
theorem C2_witness :
    (∃ enc, EncodeTo rleCodec (List.replicate 130 65) = .ok enc ∧
      DecodeTo rleCodec enc none = .ok (List.replicate 130 65)) ∧
    (∃ enc, EncodeTo a85Codec [77, 97, 110] = .ok enc ∧
      DecodeTo a85Codec enc none = .ok [77, 97, 110]) ∧
    (∃ enc, EncodeTo lzwCodec [65, 65, 65, 65, 65, 66] = .ok enc ∧
      DecodeTo lzwCodec enc none = .ok [65, 65, 65, 65, 65, 66]) ∧
    (∃ enc, EncodeTo (flateCodec echoFlate) [1, 2, 3] = .ok enc ∧
      DecodeTo (flateCodec echoFlate) enc none = .ok [1, 2, 3]) ∧
    (∃ enc, EncodeTo (cryptCodec echoCrypt) [9, 10] = .ok enc ∧
      DecodeTo (cryptCodec echoCrypt) enc none = .ok [9, 10]) :=
  ⟨C2_roundtrip.1 (List.replicate 130 65),
   C2_roundtrip.2.1 [77, 97, 110] (by simp [lowBytes]),
   C2_roundtrip.2.2.1 [65, 65, 65, 65, 65, 66] (by simp [lowBytes]),
   C2_roundtrip.2.2.2.1 Unit echoFlate echoFlate_ok [1, 2, 3],
   C2_roundtrip.2.2.2.2 Unit Unit echoCrypt echoCrypt_ok [9, 10]⟩

/-- Claim C3: the crypto context's handles satisfy the all-or-none invariant
— the freshly constructed context has every handle unset, a successful
`OpenSSLMain::Init` leaves every handle set, every state reachable through
the `ssl::Init()` entry point (explicit calls and accessor-triggered calls)
has the handles all-unset or all-set, and at most one underlying engine
initialization ever runs over a whole operation sequence. -/
theorem C3_all_or_none (ops : List SSLOp) (m m2 : OpenSSLMain) (env : InitEnv)
    (hsucc : OpenSSLMain.Init m env = (m2, none)) :
    allUnset OpenSSLMain.new ∧ allSet m2 ∧
    (allUnset (sslRun SSLGlobal.start ops).1.main ∨
      allSet (sslRun SSLGlobal.start ops).1.main) ∧
    (sslRun SSLGlobal.start ops).2 ≤ 1 := by
  have hstart : GoodSSL SSLGlobal.start :=
    ⟨fun h => absurd h (by decide), fun _ => by decide⟩
  obtain ⟨hgood, hcnt⟩ := sslRun_inv ops SSLGlobal.start hstart
  refine ⟨by decide, Init_ok_allSet m m2 env hsucc, ?_, ?_⟩
  · cases hi : (sslRun SSLGlobal.start ops).1.initialized with
    | true => exact Or.inr (hgood.1 hi)
    | false => exact Or.inl (hgood.2 hi)
  · simpa [SSLGlobal.start] using hcnt

/-- Claim C3, witness: a successful initialization under a healthy
environment, followed by an explicit `ssl::Init()` call and an accessor call
— all handles end set and exactly one engine initialization ran. -/
theorem C3_witness :
    allUnset OpenSSLMain.new ∧
    allSet ⟨some (), some (), some (), some (), some (), some (), some (),
      some (), some (), some (), some ()⟩ ∧
    (allUnset (sslRun SSLGlobal.start
        [.initCall ⟨true, true, true⟩, .accessor ⟨true, true, true⟩]).1.main ∨
      allSet (sslRun SSLGlobal.start
        [.initCall ⟨true, true, true⟩, .accessor ⟨true, true, true⟩]).1.main) ∧
    (sslRun SSLGlobal.start
      [.initCall ⟨true, true, true⟩, .accessor ⟨true, true, true⟩]).2 ≤ 1 :=
  C3_all_or_none [.initCall ⟨true, true, true⟩, .accessor ⟨true, true, true⟩]
    OpenSSLMain.new _ ⟨true, true, true⟩ rfl

/-- Claim C4: `ssl::ComputeHash` with algorithm SHA-256 over the empty input
returns exactly the standard 32-byte digest
e3b0c44298fc1c149afbf4c8996fb92427ae41e4649b934ca495991b7852b855, and for
every input the `Unknown` selector raises `InvalidEnumValue` without
producing a digest. -/
theorem C4_sha256_empty_unknown :
    ComputeHash [] .SHA256 = .ok
      [227, 176, 196, 66, 152, 252, 28, 20, 154, 251, 244, 200, 153, 111,
       185, 36, 39, 174, 65, 228, 100, 155, 147, 76, 164, 149, 153, 27, 120,
       82, 184, 85] ∧
    ∀ data : List Nat, ComputeHash data .Unknown = .error .InvalidEnumValue := by
  constructor
  · show Except.ok (sha256 []) =
      Except.ok [227, 176, 196, 66, 152, 252, 28, 20, 154, 251, 244, 200, 153,
        111, 185, 36, 39, 174, 65, 228, 100, 155, 147, 76, 164, 149, 153, 27,
        120, 82, 184, 85]
    exact congrArg Except.ok (by decide)
  · intro data
    rfl

/-- Claim C5: `BeginEncode` and `BeginDecode` succeed exactly when the engine
is not `Active` — from `Idle` or `Failed` they bind the sink, invoke the
Codec's begin hook on the reset Codec state and move the engine to `Active`;
calling either while the engine is `Active` signals `UsageError`; and after
`FailEncodeDecode` a `BeginEncode` succeeds and starts a clean session. -/
theorem C5_begin_lifecycle {σ : Type} (c : Codec σ) (e : FilterEngine σ)
    (parms : Option DecodeParms) :
    (e.state = .idle ∨ e.state = .failed →
      BeginEncode c e =
        (.ok (⟨.activeEncoding, (c.beginEncodeImpl c.init).1, true⟩,
          (c.beginEncodeImpl c.init).2), [.beginEncodeImpl]) ∧
      BeginDecode c e parms =
        (.ok (⟨.activeDecoding, (c.beginDecodeImpl c.init parms).1, true⟩,
          (c.beginDecodeImpl c.init parms).2), [.beginDecodeImpl])) ∧
    (e.state = .activeEncoding ∨ e.state = .activeDecoding →
      BeginEncode c e = (.error .UsageError, []) ∧
      BeginDecode c e parms = (.error .UsageError, [])) ∧
    (∀ e2 : FilterEngine σ,
      BeginEncode c (FailEncodeDecode e2) =
        (.ok (⟨.activeEncoding, (c.beginEncodeImpl c.init).1, true⟩,
          (c.beginEncodeImpl c.init).2), [.beginEncodeImpl])) := by
  obtain ⟨st, cs, sb⟩ := e
  refine ⟨?_, ?_, ?_⟩
  · rintro (h | h)
    · have h1 : st = .idle := h
      subst h1
      exact ⟨rfl, rfl⟩
    · have h1 : st = .failed := h
      subst h1
      exact ⟨rfl, rfl⟩
  · rintro (h | h)
    · have h1 : st = .activeEncoding := h
      subst h1
      exact ⟨rfl, rfl⟩
    · have h1 : st = .activeDecoding := h
      subst h1
      exact ⟨rfl, rfl⟩
  · intro e2
    rfl

/-- Claim C5, witness: with the RLE codec, a failed engine is re-armed by
`BeginEncode` into a clean active session, and an active engine rejects a
second `BeginEncode`. -/
theorem C5_witness :
    BeginEncode rleCodec ⟨.failed, [3], false⟩ =
      (.ok (⟨.activeEncoding, [], true⟩, []), [.beginEncodeImpl]) ∧
    BeginEncode rleCodec ⟨.activeEncoding, [], true⟩ = (.error .UsageError, []) :=
  ⟨((C5_begin_lifecycle rleCodec ⟨.failed, [3], false⟩ none).1 (Or.inr rfl)).1,
   ((C5_begin_lifecycle rleCodec ⟨.activeEncoding, [], true⟩ none).2.1
      (Or.inl rfl)).1⟩

/-- Claim C6: `ssl::GetEVP_Size` returns exactly 32 bytes for SHA-256, 48 for
SHA-384 and 64 for SHA-512, and rejects the `Unknown` selector with
`InvalidEnumValue` rather than returning a length. -/
theorem C6_digest_lengths :
    GetEVP_Size .SHA256 = .ok 32 ∧ GetEVP_Size .SHA384 = .ok 48 ∧
    GetEVP_Size .SHA512 = .ok 64 ∧
    GetEVP_Size .Unknown = .error .InvalidEnumValue :=
  ⟨rfl, rfl, rfl, rfl⟩

/-- Claim C7: for every key and every input shorter than the key's modulus
byte length, `ssl::RsaRawEncrypt` succeeds and its output has length exactly
the modulus byte length. -/
theorem C7_rsa_output_length (input : List Nat) (pkey : EVP_PKEY)
    (h : input.length < pkey.rsaSize) :
    ∃ out, RsaRawEncrypt input pkey = .ok out ∧ out.length = pkey.rsaSize := by
  cases hp : pkey.privateEncrypt input with
  | none =>
    refine ⟨List.replicate pkey.rsaSize 0, ?_, by simp⟩
    simp [RsaRawEncrypt, hp]
  | some res =>
    refine ⟨writeInto (List.replicate pkey.rsaSize 0) res, ?_, ?_⟩
    · simp [RsaRawEncrypt, hp]
    · simp only [writeInto, List.length_take, List.length_append,
        List.length_replicate, List.length_drop]
      omega

/-- Claim C7, witness: a 1-byte input against a key of modulus length 3 whose
external operation fails — the output still has length 3. -/
theorem C7_witness :
    ([1] : List Nat).length < (⟨3, fun _ => none⟩ : EVP_PKEY).rsaSize ∧
    ∃ out, RsaRawEncrypt [1] ⟨3, fun _ => none⟩ = .ok out ∧
      out.length = (⟨3, fun _ => none⟩ : EVP_PKEY).rsaSize :=
  ⟨by decide, C7_rsa_output_length [1] ⟨3, fun _ => none⟩ (by decide)⟩

/-- Claim C8: for the LZW and Deflate codecs, for every active decoding
engine and every partition of the encoded input into consecutive
`DecodeBlock` calls, the final engine and the concatenated decoded output are
identical to those of decoding the same bytes in a single `DecodeBlock`
call. -/
theorem C8_chunked_decode :
    (∀ (e : FilterEngine LZWCodecState) (chunks : List (List Nat)),
      e.state = .activeDecoding →
      DecodeBlockSeq lzwCodec e chunks =
        (DecodeBlock lzwCodec e chunks.flatten).1) ∧
    (∀ (σ : Type) (fb : FlateBackend σ) (e : FilterEngine (FlateState σ))
      (chunks : List (List Nat)), e.state = .activeDecoding →
      DecodeBlockSeq (flateCodec fb) e chunks =
        (DecodeBlock (flateCodec fb) e chunks.flatten).1) :=
  ⟨fun e chunks he => DecodeBlockSeq_join lzwCodec lzwCodec_streaming chunks e he,
   fun _ fb e chunks he =>
     DecodeBlockSeq_join (flateCodec fb) (flateCodec_streaming fb) chunks e he⟩

/-- Claim C8, witness: a concrete LZW code stream split into two chunks and an
identity Deflate backend's stream split into two chunks each decode as in one
call. -/
theorem C8_witness :
    DecodeBlockSeq lzwCodec ⟨.activeDecoding, ⟨[], lzwDecInit⟩, true⟩
        [[256], [65, 257]] =
      (DecodeBlock lzwCodec ⟨.activeDecoding, ⟨[], lzwDecInit⟩, true⟩
        [[256], [65, 257]].flatten).1 ∧
    DecodeBlockSeq (flateCodec echoFlate) ⟨.activeDecoding, ⟨[], ()⟩, true⟩
        [[1], [2, 3]] =
      (DecodeBlock (flateCodec echoFlate) ⟨.activeDecoding, ⟨[], ()⟩, true⟩
        [[1], [2, 3]].flatten).1 :=
  ⟨C8_chunked_decode.1 ⟨.activeDecoding, ⟨[], lzwDecInit⟩, true⟩ [[256], [65, 257]] rfl,
   C8_chunked_decode.2 Unit echoFlate ⟨.activeDecoding, ⟨[], ()⟩, true⟩
     [[1], [2, 3]] rfl⟩

/-- Claim C10: `ssl::RsaRawEncrypt` returns normally for every input and
every key — it never raises; and when the external private-key operation
fails, its status is discarded and the buffer resized to the modulus length
before the operation (all zeros) is returned unchanged. -/
theorem C10_rsa_total (input : List Nat) (pkey : EVP_PKEY) :
    (∃ out, RsaRawEncrypt input pkey = .ok out ∧ out.length = pkey.rsaSize) ∧
    (pkey.privateEncrypt input = none →
      RsaRawEncrypt input pkey = .ok (List.replicate pkey.rsaSize 0)) := by
  constructor
  · cases hp : pkey.privateEncrypt input with
    | none =>
      refine ⟨List.replicate pkey.rsaSize 0, ?_, by simp⟩
      simp [RsaRawEncrypt, hp]
    | some res =>
      refine ⟨writeInto (List.replicate pkey.rsaSize 0) res, ?_, ?_⟩
      · simp [RsaRawEncrypt, hp]
      · simp only [writeInto, List.length_take, List.length_append,
          List.length_replicate, List.length_drop]
        omega
  · intro hn
    simp [RsaRawEncrypt, hn]

/-- Claim C10, witness: a key whose external operation always fails still
yields a normal return: the zero-filled buffer of the modulus length. -/
theorem C10_witness :
    RsaRawEncrypt [9] ⟨2, fun _ => none⟩ = .ok (List.replicate 2 0) :=
  (C10_rsa_total [9] ⟨2, fun _ => none⟩).2 rfl
